import Mathlib

/-!
Verification of the in-memory migration index (`Migrations`) and the
source drivers (iofs, Google Cloud Storage) of the migrate repository.

The Go code is shallowly embedded: Go maps become association lists
(Go maps have distinct keys, so key-nodup hypotheses appear where a
lemma needs them), pointer records become values reinserted on update,
and the nil-pointer dereference in `MarkSkipMigrations` (a Go panic)
becomes an `Option` returning `none`.
-/

set_option maxHeartbeats 1000000

namespace Migrate

/-- Direction is either up or down (Go: type Direction string, consts Down / Up). -/
inductive Direction where
  | Down : Direction
  | Up : Direction
deriving DecidableEq, Repr

/-- Status of a migration (Go: type Status string). -/
inductive Status where
  | Skipped : Status
  | Pending : Status
  | Done : Status
  | Failed : Status
deriving DecidableEq, Repr

/-- Migration is a helper struct for source drivers (Go struct Migration). -/
structure Migration where
  Version : Nat
  Identifier : String
  Direction : Direction
  Raw : String
  Status : Status
  Error : String
deriving DecidableEq, Repr

/-- The inner Go map, map from Direction to a migration pointer:
map[Direction]*Migration. A missing key reads as none (nil pointer). -/
structure DirMap where
  up : Option Migration
  down : Option Migration
deriving DecidableEq, Repr

def DirMap.get (e : DirMap) : Direction → Option Migration
  | .Up => e.up
  | .Down => e.down

def DirMap.set (e : DirMap) (d : Direction) (m : Option Migration) : DirMap :=
  match d with
  | .Up => { e with up := m }
  | .Down => { e with down := m }

/-- Association-list lookup, modelling a Go map read. -/
def alLookup {κ α : Type} [DecidableEq κ] (k : κ) : List (κ × α) → Option α
  | [] => none
  | (k0, a) :: rest => if k0 = k then some a else alLookup k rest

/-- Association-list insert/update, modelling a Go map write: replaces the
first binding of the key in place, or appends a new binding. -/
def alInsert {κ α : Type} [DecidableEq κ] (k : κ) (a : α) : List (κ × α) → List (κ × α)
  | [] => [(k, a)]
  | (k0, a0) :: rest => if k0 = k then (k, a) :: rest else (k0, a0) :: alInsert k a rest

/-- The outer Go map: map[uint]map[Direction]*Migration. -/
abbrev MigMap : Type := List (Nat × DirMap)

/-- Go map read with zero value: reading a missing key of the outer map
yields a nil inner map, whose reads in turn yield nil. -/
def mapGet (mp : MigMap) (v : Nat) : DirMap :=
  (alLookup v mp).getD ⟨none, none⟩

def keys (mp : MigMap) : List Nat := mp.map Prod.fst

/-- Insertion into a sorted list, ascending. -/
def insertSorted (x : Nat) : List Nat → List Nat
  | [] => [x]
  | y :: ys => if x ≤ y then x :: y :: ys else y :: insertSorted x ys

/-- Ascending sort of the key slice, modelling sort.Slice with a less
comparison in buildIndex. -/
def sortNat : List Nat → List Nat
  | [] => []
  | x :: xs => insertSorted x (sortNat xs)

/-- Migrations wraps Migration and has an internal index (Go struct Migrations). -/
structure Migrations where
  index : List Nat
  migrations : MigMap
deriving DecidableEq

def NewMigrations : Migrations := { index := [], migrations := [] }

/-- Go: func (i *Migrations) buildIndex(). Collects the keys of the
migrations map and sorts them ascending. -/
def Migrations.buildIndex (i : Migrations) : Migrations :=
  { i with index := sortNat (keys i.migrations) }

/-- Go: func (i *Migrations) Append(m *Migration) (ok bool).
The argument is an Option since the Go pointer may be nil. -/
def Migrations.Append (i : Migrations) (m : Option Migration) : Migrations × Bool :=
  match m with
  | none => (i, false)
  | some m =>
    let migs : MigMap :=
      match alLookup m.Version i.migrations with
      | none => alInsert m.Version ⟨none, none⟩ i.migrations
      | some _ => i.migrations
    match (mapGet migs m.Version).get m.Direction with
    | some _ => ({ i with migrations := migs }, false)
    | none =>
      let iIns : Migrations :=
        { i with migrations :=
            alInsert m.Version ((mapGet migs m.Version).set m.Direction (some m)) migs }
      (iIns.buildIndex, true)

/-- Go: func (i *Migrations) First() (version uint, ok bool). -/
def Migrations.First (i : Migrations) : Nat × Bool :=
  if i.index.length = 0 then (0, false)
  else (i.index.getD 0 0, true)

/-- Go sort.Search binary-search loop. -/
def searchLoop (f : Nat → Bool) (i j : Nat) : Nat :=
  if h : i < j then
    let m := (i + j) / 2
    if f m then searchLoop f i m else searchLoop f (m + 1) j
  else i
termination_by j - i
decreasing_by
  all_goals omega

/-- Go: func (s uintSlice) Search(x uint) int, via sort.Search with
the predicate s at position k is at least x. -/
def uintSlice.Search (s : List Nat) (x : Nat) : Nat :=
  searchLoop (fun k => decide (x ≤ s.getD k 0)) 0 s.length

/-- Go: func (i *Migrations) findPos(version uint) int. Returns -1 when
the version is not an exact member of the index. -/
def Migrations.findPos (i : Migrations) (version : Nat) : Int :=
  if 0 < i.index.length then
    let ix := uintSlice.Search i.index version
    if ix < i.index.length ∧ i.index.getD ix 0 = version then (ix : Int) else -1
  else -1

/-- Go: func (i *Migrations) Prev(version uint) (prevVersion uint, ok bool). -/
def Migrations.Prev (i : Migrations) (version : Nat) : Nat × Bool :=
  let pos := i.findPos version
  if 1 ≤ pos ∧ pos - 1 < (i.index.length : Int) then
    (i.index.getD (pos - 1).toNat 0, true)
  else (0, false)

/-- Go: func (i *Migrations) Next(version uint) (nextVersion uint, ok bool). -/
def Migrations.Next (i : Migrations) (version : Nat) : Nat × Bool :=
  let pos := i.findPos version
  if 0 ≤ pos ∧ pos + 1 < (i.index.length : Int) then
    (i.index.getD (pos + 1).toNat 0, true)
  else (0, false)

/-- Go: func (i *Migrations) Up(version uint) (m *Migration, ok bool). -/
def Migrations.Up (i : Migrations) (version : Nat) : Option Migration × Bool :=
  match alLookup version i.migrations with
  | some mp =>
    match mp.get .Up with
    | some mx => (some mx, true)
    | none => (none, false)
  | none => (none, false)

/-- Go: func (i *Migrations) Down(version uint) (m *Migration, ok bool). -/
def Migrations.Down (i : Migrations) (version : Nat) : Option Migration × Bool :=
  match alLookup version i.migrations with
  | some mp =>
    match mp.get .Down with
    | some mx => (some mx, true)
    | none => (none, false)
  | none => (none, false)

/-- The record stored for a (version, direction) pair, if any. -/
def dirLookup (i : Migrations) (v : Nat) (d : Direction) : Option Migration :=
  (mapGet i.migrations v).get d

/-- Go: i.migrations[w][dir].Status = Skipped. When the record for the
direction is missing this is a nil-pointer dereference: modelled as none. -/
def setSkipped (mp : MigMap) (w : Nat) (dir : Direction) : Option MigMap :=
  match (mapGet mp w).get dir with
  | none => none
  | some mx =>
    some (alInsert w ((mapGet mp w).set dir (some { mx with Status := .Skipped })) mp)

/-- One iteration of the MarkSkipMigrations loop body. -/
def markStep (mp : MigMap) (w : Nat) (version : Nat) (dir : Direction) : Option MigMap :=
  if dir = .Up ∧ w ≤ version then setSkipped mp w dir
  else if dir = .Down ∧ version ≤ w then setSkipped mp w dir
  else some mp

/-- The MarkSkipMigrations loop over the index slice. -/
def markFold (mp : MigMap) (l : List Nat) (version : Nat) (dir : Direction) : Option MigMap :=
  match l with
  | [] => some mp
  | w :: ws => (markStep mp w version dir).bind (fun mp1 => markFold mp1 ws version dir)

/-- Go: func (i *Migrations) MarkSkipMigrations(version uint, dir Direction).
Returns none when the Go code would panic on a nil record. -/
def Migrations.MarkSkipMigrations (i : Migrations) (version : Nat) (dir : Direction) :
    Option Migrations :=
  (markFold i.migrations i.index version dir).map (fun mp => { i with migrations := mp })

/-- Go: func (i *Migrations) UpdateStatus(version uint, status Status, errstr string). -/
def Migrations.UpdateStatus (i : Migrations) (version : Nat) (status : Status)
    (errstr : String) : Migrations :=
  match alLookup version i.migrations with
  | none => i
  | some mp0 =>
    let mp1 : DirMap :=
      match mp0.get .Up with
      | some mx => mp0.set .Up (some { mx with Status := status, Error := errstr })
      | none => mp0
    let mp2 : DirMap :=
      match mp1.get .Down with
      | some mx => mp1.set .Down (some { mx with Status := status, Error := errstr })
      | none => mp1
    { i with migrations := alInsert version mp2 i.migrations }

/-! Basic lemmas on the association-list map operations. -/

theorem alLookup_alInsert_self {κ α : Type} [DecidableEq κ] (k : κ) (a : α)
    (m : List (κ × α)) : alLookup k (alInsert k a m) = some a := by
  induction m with
  | nil => simp [alInsert, alLookup]
  | cons kv rest ih =>
    obtain ⟨k0, a0⟩ := kv
    by_cases h : k0 = k
    · subst h
      simp [alInsert, alLookup]
    · simp [alInsert, alLookup, h, ih]

theorem alLookup_alInsert_ne {κ α : Type} [DecidableEq κ] (k w : κ) (a : α)
    (m : List (κ × α)) (hne : w ≠ k) : alLookup w (alInsert k a m) = alLookup w m := by
  have hne2 : k ≠ w := Ne.symm hne
  induction m with
  | nil => simp [alInsert, alLookup, hne2]
  | cons kv rest ih =>
    obtain ⟨k0, a0⟩ := kv
    by_cases h : k0 = k
    · subst h
      simp [alInsert, alLookup, hne2]
    · by_cases h2 : k0 = w <;> simp [alInsert, alLookup, h, h2, ih, hne]

theorem alLookup_isSome_iff_mem {κ α : Type} [DecidableEq κ] (k : κ)
    (m : List (κ × α)) : (alLookup k m).isSome ↔ k ∈ m.map Prod.fst := by
  induction m with
  | nil => simp [alLookup]
  | cons kv rest ih =>
    obtain ⟨k0, a0⟩ := kv
    by_cases h : k0 = k
    · subst h
      simp [alLookup]
    · have h2 : k ≠ k0 := Ne.symm h
      simp [alLookup, h, ih, h2]

theorem alLookup_eq_none_iff_not_mem {κ α : Type} [DecidableEq κ] (k : κ)
    (m : List (κ × α)) : alLookup k m = none ↔ k ∉ m.map Prod.fst := by
  rw [← alLookup_isSome_iff_mem]
  cases alLookup k m <;> simp

theorem keys_alInsert_of_mem {κ α : Type} [DecidableEq κ] (k : κ) (a : α)
    (m : List (κ × α)) (hm : k ∈ m.map Prod.fst) :
    (alInsert k a m).map Prod.fst = m.map Prod.fst := by
  induction m with
  | nil => simp at hm
  | cons kv rest ih =>
    obtain ⟨k0, a0⟩ := kv
    by_cases h : k0 = k
    · subst h
      simp [alInsert]
    · simp only [List.map_cons, List.mem_cons] at hm
      rcases hm with hm | hm

      · exact absurd hm.symm h
      · simp [alInsert, h, ih hm]

theorem keys_alInsert_of_not_mem {κ α : Type} [DecidableEq κ] (k : κ) (a : α)
    (m : List (κ × α)) (hm : k ∉ m.map Prod.fst) :
    (alInsert k a m).map Prod.fst = m.map Prod.fst ++ [k] := by
  induction m with
  | nil => simp [alInsert]
  | cons kv rest ih =>
    obtain ⟨k0, a0⟩ := kv
    simp only [List.map_cons, List.mem_cons] at hm
    push_neg at hm
    have h : k0 ≠ k := fun h => hm.1 h.symm
    simp [alInsert, h, ih hm.2]

theorem alLookup_eq_some_of_mem_nodup {κ α : Type} [DecidableEq κ] (k : κ) (a : α)
    (m : List (κ × α)) (hn : (m.map Prod.fst).Nodup) (hm : (k, a) ∈ m) :
    alLookup k m = some a := by
  induction m with
  | nil => simp at hm
  | cons kv rest ih =>
    obtain ⟨k0, a0⟩ := kv
    simp only [List.map_cons, List.nodup_cons] at hn
    rcases List.mem_cons.mp hm with hm | hm
    · obtain ⟨h1, h2⟩ := Prod.mk.injEq .. ▸ hm
      simp_all [alLookup]
    · have hkne : k0 ≠ k := by
        intro h
        subst h
        exact hn.1 (List.mem_map.mpr ⟨(k0, a), hm, rfl⟩)
      simp [alLookup, hkne, ih hn.2 hm]

theorem alLookup_mem {κ α : Type} [DecidableEq κ] (k : κ) (a : α)
    (m : List (κ × α)) (h : alLookup k m = some a) : (k, a) ∈ m := by
  induction m with
  | nil => simp [alLookup] at h
  | cons kv rest ih =>
    obtain ⟨k0, a0⟩ := kv
    by_cases hk : k0 = k
    · subst hk
      simp [alLookup] at h
      simp [h]
    · simp only [alLookup] at h
      rw [if_neg hk] at h
      exact List.mem_cons_of_mem _ (ih h)

/-! DirMap get/set lemmas. -/

theorem DirMap.get_set_self (e : DirMap) (d : Direction) (m : Option Migration) :
    (e.set d m).get d = m := by
  cases d <;> rfl

theorem DirMap.get_set_ne (e : DirMap) (d d2 : Direction) (m : Option Migration)
    (h : d2 ≠ d) : (e.set d m).get d2 = e.get d2 := by
  cases d <;> cases d2 <;> first | rfl | exact absurd rfl h

theorem DirMap.set_set (e : DirMap) (d : Direction) (m1 m2 : Option Migration) :
    (e.set d m1).set d m2 = e.set d m2 := by
  cases d <;> rfl

/-! Sorting lemmas. -/

theorem insertSorted_perm (x : Nat) (l : List Nat) :
    (insertSorted x l).Perm (x :: l) := by
  induction l with
  | nil => simp [insertSorted]
  | cons y ys ih =>
    by_cases h : x ≤ y
    · simp [insertSorted, h]
    · simp only [insertSorted, if_neg h]
      exact ((ih.cons y).trans (List.Perm.swap x y ys))

theorem insertSorted_sorted (x : Nat) (l : List Nat)
    (hl : l.Sorted (· ≤ ·)) : (insertSorted x l).Sorted (· ≤ ·) := by
  induction l with
  | nil => simp [insertSorted]
  | cons y ys ih =>
    by_cases h : x ≤ y
    · simp only [insertSorted, if_pos h]
      refine List.sorted_cons.mpr ⟨?_, hl⟩
      intro b hb
      rcases List.mem_cons.mp hb with hb | hb
      · omega
      · exact le_trans h (List.rel_of_sorted_cons hl b hb)
    · simp only [insertSorted, if_neg h]
      have hys : ys.Sorted (· ≤ ·) := hl.of_cons
      refine List.sorted_cons.mpr ⟨?_, ih hys⟩
      intro b hb
      have hb2 := (insertSorted_perm x ys).mem_iff.mp hb
      rcases List.mem_cons.mp hb2 with hb2 | hb2
      · omega
      · exact List.rel_of_sorted_cons hl b hb2

theorem sortNat_perm (l : List Nat) : (sortNat l).Perm l := by
  induction l with
  | nil => simp [sortNat]
  | cons x xs ih =>
    exact (insertSorted_perm x (sortNat xs)).trans (ih.cons x)

theorem sortNat_sorted (l : List Nat) : (sortNat l).Sorted (· ≤ ·) := by
  induction l with
  | nil => simp [sortNat]
  | cons x xs ih => exact insertSorted_sorted x (sortNat xs) ih

theorem sortNat_eq_of_perm (l1 l2 : List Nat) (h : l1.Perm l2) :
    sortNat l1 = sortNat l2 := by
  refine List.eq_of_perm_of_sorted ?_ (sortNat_sorted l1) (sortNat_sorted l2)
  exact (sortNat_perm l1).trans (h.trans (sortNat_perm l2).symm)

theorem sortNat_nodup (l : List Nat) (h : l.Nodup) : (sortNat l).Nodup :=
  (sortNat_perm l).nodup_iff.mpr h

theorem sorted_lt_of_sorted_le_nodup (l : List Nat)
    (hs : l.Sorted (· ≤ ·)) (hn : l.Nodup) : l.Sorted (· < ·) := by
  have := List.Pairwise.and hs hn
  exact this.imp (fun h => lt_of_le_of_ne h.1 h.2)

theorem sortNat_sorted_lt (l : List Nat) (h : l.Nodup) :
    (sortNat l).Sorted (· < ·) :=
  sorted_lt_of_sorted_le_nodup _ (sortNat_sorted l) (sortNat_nodup l h)

/-! Append lemmas. -/

/-- Go maps have distinct keys: the states of the association-list model
that correspond to a Go map state. -/
def nodupKeys (mp : MigMap) : Prop := (keys mp).Nodup

/-- The derived-index invariant: the sorted sequence equals the sorted
set of keys of the version mapping. -/
def goodIndex (i : Migrations) : Prop := i.index = sortNat (keys i.migrations)

theorem DirMap.get_default (d : Direction) : DirMap.get ⟨none, none⟩ d = none := by
  cases d <;> rfl

theorem alInsert_alInsert {κ α : Type} [DecidableEq κ] (k : κ) (a b : α)
    (m : List (κ × α)) : alInsert k a (alInsert k b m) = alInsert k a m := by
  induction m with
  | nil => simp [alInsert]
  | cons kv rest ih =>
    obtain ⟨k0, a0⟩ := kv
    by_cases h : k0 = k
    · subst h
      simp [alInsert]
    · simp [alInsert, h, ih]

theorem mapGet_alInsert_self (v : Nat) (e : DirMap) (mp : MigMap) :
    mapGet (alInsert v e mp) v = e := by
  rw [mapGet, alLookup_alInsert_self]
  rfl

theorem mapGet_alInsert_ne (v w : Nat) (e : DirMap) (mp : MigMap) (h : w ≠ v) :
    mapGet (alInsert v e mp) w = mapGet mp w := by
  rw [mapGet, alLookup_alInsert_ne _ _ _ _ h, mapGet]

theorem append_none_eq (i : Migrations) : i.Append none = (i, false) := rfl

theorem append_dup_eq (i : Migrations) (m x : Migration)
    (h : dirLookup i m.Version m.Direction = some x) :
    i.Append (some m) = (i, false) := by
  obtain ⟨mp, hmp⟩ : ∃ mp, alLookup m.Version i.migrations = some mp := by
    cases hl : alLookup m.Version i.migrations with
    | none =>
      rw [dirLookup, mapGet, hl, Option.getD_none, DirMap.get_default] at h
      exact absurd h (by simp)
    | some mp => exact ⟨mp, rfl⟩
  rw [dirLookup] at h
  simp only [Migrations.Append, hmp, h]

theorem append_success_eq (i : Migrations) (m : Migration)
    (h : dirLookup i m.Version m.Direction = none) :
    i.Append (some m) =
      (Migrations.buildIndex
        { i with
          migrations :=
            alInsert m.Version
              ((mapGet i.migrations m.Version).set m.Direction (some m))
              i.migrations },
        true) := by
  rw [dirLookup] at h
  cases hl : alLookup m.Version i.migrations with
  | none =>
    have hget : mapGet (alInsert m.Version ⟨none, none⟩ i.migrations) m.Version =
        ⟨none, none⟩ := mapGet_alInsert_self _ _ _
    have hget0 : mapGet i.migrations m.Version = ⟨none, none⟩ := by
      rw [mapGet, hl, Option.getD_none]
    simp only [Migrations.Append, hl, hget, DirMap.get_default, hget0,
      alInsert_alInsert]
  | some mp =>
    simp only [Migrations.Append, hl, h]

theorem append_snd_true_iff (i : Migrations) (m : Migration) :
    (i.Append (some m)).2 = true ↔ dirLookup i m.Version m.Direction = none := by
  cases h : dirLookup i m.Version m.Direction with
  | none => simp [append_success_eq i m h]
  | some x => simp [append_dup_eq i m x h]

theorem append_dirLookup_self (i : Migrations) (m : Migration)
    (h : dirLookup i m.Version m.Direction = none) :
    dirLookup (i.Append (some m)).1 m.Version m.Direction = some m := by
  rw [append_success_eq i m h]
  rw [dirLookup, Migrations.buildIndex]
  show (mapGet (alInsert _ _ _) _).get _ = _
  rw [mapGet_alInsert_self, DirMap.get_set_self]

theorem append_dirLookup_other (i : Migrations) (m : Migration) (v : Nat)
    (d : Direction) (h : ¬(v = m.Version ∧ d = m.Direction)) :
    dirLookup (i.Append (some m)).1 v d = dirLookup i v d := by
  cases hs : dirLookup i m.Version m.Direction with
  | some x => rw [append_dup_eq i m x hs]
  | none =>
    rw [append_success_eq i m hs]
    rw [dirLookup, Migrations.buildIndex]
    show (mapGet (alInsert _ _ _) _).get _ = _
    by_cases hv : v = m.Version
    · subst hv
      have hd : d ≠ m.Direction := fun hd => h ⟨rfl, hd⟩
      rw [mapGet_alInsert_self, DirMap.get_set_ne _ _ _ _ hd, dirLookup]
    · rw [mapGet_alInsert_ne _ _ _ _ hv, dirLookup]

theorem append_keys_mem (i : Migrations) (m : Migration) (v : Nat) :
    v ∈ keys (i.Append (some m)).1.migrations ↔
      v = m.Version ∨ v ∈ keys i.migrations := by
  cases hs : dirLookup i m.Version m.Direction with
  | some x =>
    rw [append_dup_eq i m x hs]
    have hmem : m.Version ∈ keys i.migrations := by
      rw [keys, ← alLookup_isSome_iff_mem]
      rw [dirLookup, mapGet] at hs
      cases hl : alLookup m.Version i.migrations with
      | none =>
        rw [hl, Option.getD_none, DirMap.get_default] at hs
        exact absurd hs (by simp)
      | some mp => simp
    constructor
    · exact Or.inr
    · rintro (rfl | hv)
      · exact hmem
      · exact hv
  | none =>
    rw [append_success_eq i m hs]
    show v ∈ keys (alInsert _ _ _) ↔ _
    by_cases hmem : m.Version ∈ keys i.migrations
    · rw [show keys (alInsert m.Version ((mapGet i.migrations m.Version).set
        m.Direction (some m)) i.migrations) = keys i.migrations from
        keys_alInsert_of_mem _ _ _ hmem]
      constructor
      · exact Or.inr
      · rintro (rfl | hv)
        · exact hmem
        · exact hv
    · rw [show keys (alInsert m.Version ((mapGet i.migrations m.Version).set
        m.Direction (some m)) i.migrations) = keys i.migrations ++ [m.Version] from
        keys_alInsert_of_not_mem _ _ _ hmem]
      simp [or_comm]

theorem append_nodupKeys (i : Migrations) (mo : Option Migration)
    (hn : nodupKeys i.migrations) : nodupKeys (i.Append mo).1.migrations := by
  cases mo with
  | none => exact hn
  | some m =>
    cases hs : dirLookup i m.Version m.Direction with
    | some x => rw [append_dup_eq i m x hs]; exact hn
    | none =>
      rw [append_success_eq i m hs]
      show nodupKeys (alInsert _ _ _)
      by_cases hmem : m.Version ∈ keys i.migrations
      · rw [nodupKeys, keys, keys_alInsert_of_mem _ _ _ hmem]
        exact hn
      · rw [nodupKeys, keys, keys_alInsert_of_not_mem _ _ _ hmem]
        simp only [List.nodup_append, List.nodup_cons]
        refine ⟨hn, by simp, ?_⟩
        intro a ha hb
        simp only [List.mem_singleton] at hb
        subst hb
        exact hmem ha

theorem append_goodIndex (i : Migrations) (mo : Option Migration)
    (hg : goodIndex i) : goodIndex (i.Append mo).1 := by
  cases mo with
  | none => exact hg
  | some m =>
    cases hs : dirLookup i m.Version m.Direction with
    | some x => rw [append_dup_eq i m x hs]; exact hg
    | none =>
      rw [append_success_eq i m hs]
      rfl

theorem append_index_sorted_after_success (i : Migrations) (m : Migration)
    (h : dirLookup i m.Version m.Direction = none) :
    (i.Append (some m)).1.index = sortNat (keys (i.Append (some m)).1.migrations) := by
  rw [append_success_eq i m h]
  rfl

theorem first_eq_none_iff (i : Migrations) : i.First = (0, false) ↔ i.index = [] := by
  cases h : i.index with
  | nil => simp [Migrations.First, h]
  | cons x xs =>
    simp only [Migrations.First, h]
    simp

/-! Sequences of Append calls. -/

/-- Run a sequence of Append calls; the Bool records whether every call
returned ok. -/
def runAppends (i : Migrations) : List Migration → Migrations × Bool
  | [] => (i, true)
  | m :: rest =>
    let r := i.Append (some m)
    let s := runAppends r.1 rest
    (s.1, r.2 && s.2)

theorem append_dirLookup_isSome_iff (i : Migrations) (m : Migration) (v : Nat)
    (d : Direction) :
    (dirLookup (i.Append (some m)).1 v d).isSome ↔
      (dirLookup i v d).isSome ∨ (v = m.Version ∧ d = m.Direction) := by
  by_cases hp : v = m.Version ∧ d = m.Direction
  · obtain ⟨rfl, rfl⟩ := hp
    cases hs : dirLookup i m.Version m.Direction with
    | none => simp [append_dirLookup_self i m hs]
    | some x => simp [append_dup_eq i m x hs, hs]
  · rw [append_dirLookup_other i m v d hp]
    simp [hp]

theorem runAppends_dirLookup_isSome (l : List Migration) (i : Migrations) (v : Nat)
    (d : Direction) :
    (dirLookup (runAppends i l).1 v d).isSome ↔
      (dirLookup i v d).isSome ∨ ∃ m ∈ l, m.Version = v ∧ m.Direction = d := by
  induction l generalizing i with
  | nil => simp [runAppends]
  | cons m rest ih =>
    show (dirLookup (runAppends (i.Append (some m)).1 rest).1 v d).isSome ↔ _
    rw [ih, append_dirLookup_isSome_iff]
    constructor
    · rintro ((h | ⟨h1, h2⟩) | ⟨m2, hm2, h1, h2⟩)
      · exact Or.inl h
      · exact Or.inr ⟨m, List.mem_cons_self _ _, h1.symm, h2.symm⟩
      · exact Or.inr ⟨m2, List.mem_cons_of_mem _ hm2, h1, h2⟩
    · rintro (h | ⟨m2, hm2, h1, h2⟩)
      · exact Or.inl (Or.inl h)
      · rcases List.mem_cons.mp hm2 with rfl | hm2
        · exact Or.inl (Or.inr ⟨h1.symm, h2.symm⟩)
        · exact Or.inr ⟨m2, hm2, h1, h2⟩

theorem runAppends_ok (l : List Migration) (i : Migrations)
    (habs : ∀ m ∈ l, dirLookup i m.Version m.Direction = none)
    (hdist : l.Pairwise (fun a b => ¬(a.Version = b.Version ∧ a.Direction = b.Direction))) :
    (runAppends i l).2 = true := by
  induction l generalizing i with
  | nil => rfl
  | cons m rest ih =>
    have h0 : dirLookup i m.Version m.Direction = none :=
      habs m (List.mem_cons_self _ _)
    have hok : (i.Append (some m)).2 = true := (append_snd_true_iff i m).mpr h0
    have habs2 : ∀ m2 ∈ rest, dirLookup (i.Append (some m)).1 m2.Version m2.Direction = none := by
      intro m2 hm2
      have hne0 : ¬(m.Version = m2.Version ∧ m.Direction = m2.Direction) :=
        (List.pairwise_cons.mp hdist).1 m2 hm2
      have hne : ¬(m2.Version = m.Version ∧ m2.Direction = m.Direction) := by
        intro ⟨h1, h2⟩
        exact hne0 ⟨h1.symm, h2.symm⟩
      rw [append_dirLookup_other i m _ _ hne]
      exact habs m2 (List.mem_cons_of_mem _ hm2)
    have := ih (i.Append (some m)).1 habs2 (List.pairwise_cons.mp hdist).2
    show ((i.Append (some m)).2 && (runAppends (i.Append (some m)).1 rest).2) = true
    rw [hok, this]
    rfl

theorem runAppends_keys_mem (l : List Migration) (i : Migrations) (v : Nat) :
    v ∈ keys (runAppends i l).1.migrations ↔
      v ∈ keys i.migrations ∨ v ∈ l.map Migration.Version := by
  induction l generalizing i with
  | nil => simp [runAppends]
  | cons m rest ih =>
    show v ∈ keys (runAppends (i.Append (some m)).1 rest).1.migrations ↔ _
    rw [ih, append_keys_mem]
    simp only [List.map_cons, List.mem_cons]
    tauto

theorem runAppends_nodupKeys (l : List Migration) (i : Migrations)
    (hn : nodupKeys i.migrations) : nodupKeys (runAppends i l).1.migrations := by
  induction l generalizing i with
  | nil => exact hn
  | cons m rest ih =>
    exact ih (i.Append (some m)).1 (append_nodupKeys i (some m) hn)

theorem runAppends_goodIndex (l : List Migration) (i : Migrations)
    (hg : goodIndex i) : goodIndex (runAppends i l).1 := by
  induction l generalizing i with
  | nil => exact hg
  | cons m rest ih =>
    exact ih (i.Append (some m)).1 (append_goodIndex i (some m) hg)

theorem NewMigrations_goodIndex : goodIndex NewMigrations := rfl

theorem NewMigrations_nodupKeys : nodupKeys NewMigrations.migrations := List.nodup_nil

theorem runAppends_dirLookup_from_empty (l : List Migration) (v : Nat) (d : Direction) :
    dirLookup (runAppends NewMigrations l).1 v d = none ↔
      ∀ m ∈ l, ¬(m.Version = v ∧ m.Direction = d) := by
  have h := runAppends_dirLookup_isSome l NewMigrations v d
  have h0 : dirLookup NewMigrations v d = none := by
    rw [dirLookup, mapGet]
    show (DirMap.get ⟨none, none⟩ d) = none
    exact DirMap.get_default d
  rw [h0] at h
  simp only [Option.isSome_none, Bool.false_eq_true, false_or] at h
  constructor
  · intro hn m hm ⟨h1, h2⟩
    have : (dirLookup (runAppends NewMigrations l).1 v d).isSome := by
      exact h.mpr ⟨m, hm, h1, h2⟩
    rw [hn] at this
    simp at this
  · intro hall
    cases hd : dirLookup (runAppends NewMigrations l).1 v d with
    | none => rfl
    | some x =>
      have : ∃ m ∈ l, m.Version = v ∧ m.Direction = d := by
        apply h.mp
        rw [hd]
        rfl
      obtain ⟨m, hm, h1, h2⟩ := this
      exact absurd ⟨h1, h2⟩ (hall m hm)

theorem runAppends_keys_perm_dedup (l : List Migration) :
    (keys (runAppends NewMigrations l).1.migrations).Perm
      ((l.map Migration.Version).dedup) := by
  refine (List.perm_ext_iff_of_nodup ?_ (List.nodup_dedup _)).mpr ?_
  · exact runAppends_nodupKeys l NewMigrations NewMigrations_nodupKeys
  · intro v
    rw [List.mem_dedup, runAppends_keys_mem]
    show v ∈ ([] : List Nat) ∨ _ ↔ _
    simp

theorem runAppends_index_eq (l : List Migration) :
    (runAppends NewMigrations l).1.index = sortNat ((l.map Migration.Version).dedup) := by
  have hg := runAppends_goodIndex l NewMigrations NewMigrations_goodIndex
  rw [goodIndex] at hg
  rw [hg]
  exact sortNat_eq_of_perm _ _ (runAppends_keys_perm_dedup l)

/-! Binary search and findPos lemmas. -/

theorem searchLoop_eq (f : Nat → Bool) (c : Nat) :
    ∀ n i j, j - i ≤ n → i ≤ c → c ≤ j →
    (∀ k, i ≤ k → k < c → f k = false) →
    (∀ k, c ≤ k → k < j → f k = true) →
    searchLoop f i j = c := by
  intro n
  induction n with
  | zero =>
    intro i j hn hic hcj _ _
    rw [searchLoop]
    have : ¬i < j := by omega
    rw [dif_neg this]
    omega
  | succ n ih =>
    intro i j hn hic hcj hlow hhigh
    rw [searchLoop]
    by_cases hij : i < j
    · rw [dif_pos hij]
      have hm1 : i ≤ (i + j) / 2 := by omega
      have hm2 : (i + j) / 2 < j := by omega
      by_cases hf : f ((i + j) / 2) = true
      · rw [if_pos hf]
        have hcm : c ≤ (i + j) / 2 := by
          by_contra hcm
          push_neg at hcm
          have := hlow ((i + j) / 2) hm1 hcm
          rw [hf] at this
          exact absurd this (by simp)
        exact ih i ((i + j) / 2) (by omega) hic hcm hlow
          (fun k hk1 hk2 => hhigh k hk1 (by omega))
      · rw [if_neg hf]
        have hcm : (i + j) / 2 + 1 ≤ c := by
          by_contra hcm
          push_neg at hcm
          have := hhigh ((i + j) / 2) (by omega) hm2
          exact hf this
        exact ih ((i + j) / 2 + 1) j (by omega) hcm hcj
          (fun k hk1 hk2 => hlow k (by omega) hk2) hhigh
    · rw [dif_neg hij]
      omega

theorem sorted_lt_getD (l : List Nat) (hs : l.Sorted (· < ·)) (a b : Nat)
    (hab : a < b) (hb : b < l.length) : l.getD a 0 < l.getD b 0 := by
  rw [List.getD_eq_getElem _ _ (by omega), List.getD_eq_getElem _ _ hb]
  exact List.pairwise_iff_getElem.mp hs a b (by omega) hb hab

theorem exists_lowerBound (x : Nat) (l : List Nat) (hs : l.Sorted (· ≤ ·)) :
    ∃ c, c ≤ l.length ∧ (∀ k, k < c → l.getD k 0 < x) ∧
      (∀ k, c ≤ k → k < l.length → x ≤ l.getD k 0) := by
  induction l with
  | nil => exact ⟨0, by simp, by omega, by simp⟩
  | cons y ys ih =>
    by_cases hxy : x ≤ y
    · refine ⟨0, by simp, by omega, ?_⟩
      intro k _ hk
      cases k with
      | zero => exact hxy
      | succ k =>
        show x ≤ ys.getD k 0
        simp only [List.length_cons] at hk
        have hmem : ys.getD k 0 ∈ ys := by
          rw [List.getD_eq_getElem _ _ (by omega)]
          exact List.getElem_mem _
        exact le_trans hxy (List.rel_of_sorted_cons hs _ hmem)
    · obtain ⟨c, hc1, hc2, hc3⟩ := ih hs.of_cons
      refine ⟨c + 1, by simpa using hc1, ?_, ?_⟩
      · intro k hk
        cases k with
        | zero => exact Nat.lt_of_not_le hxy
        | succ k => exact hc2 k (by omega)
      · intro k hk1 hk2
        cases k with
        | zero => omega
        | succ k =>
          simp only [List.length_cons] at hk2
          exact hc3 k (by omega) (by omega)

theorem Search_eq_of_bounds (s : List Nat) (x c : Nat) (hcl : c ≤ s.length)
    (hlow : ∀ k, k < c → s.getD k 0 < x)
    (hhigh : ∀ k, c ≤ k → k < s.length → x ≤ s.getD k 0) :
    uintSlice.Search s x = c := by
  refine searchLoop_eq _ c s.length 0 s.length (by omega) (by omega) hcl ?_ ?_
  · intro k _ hk
    simp only [decide_eq_false_iff_not, not_le]
    exact hlow k hk
  · intro k hk1 hk2
    simp only [decide_eq_true_eq]
    exact hhigh k hk1 hk2

theorem findPos_of_getD (i : Migrations) (hs : i.index.Sorted (· < ·)) (k : Nat)
    (hk : k < i.index.length) : i.findPos (i.index.getD k 0) = (k : Int) := by
  have hsle : i.index.Sorted (· ≤ ·) := hs.imp le_of_lt
  obtain ⟨c, hc1, hc2, hc3⟩ := exists_lowerBound (i.index.getD k 0) i.index hsle
  have hck : c = k := by
    rcases Nat.lt_trichotomy c k with h | h | h
    · have h1 := hc3 c (le_refl c) (by omega)
      have h2 := sorted_lt_getD i.index hs c k h hk
      omega
    · exact h
    · have := hc2 k h
      omega
  have hsearch : uintSlice.Search i.index (i.index.getD k 0) = k := by
    have h0 := Search_eq_of_bounds i.index (i.index.getD k 0) c hc1 hc2 hc3
    omega
  rw [Migrations.findPos, if_pos (by omega)]
  simp only [hsearch]
  rw [if_pos ⟨hk, by trivial⟩]

theorem findPos_of_not_mem (i : Migrations) (hs : i.index.Sorted (· < ·)) (v : Nat)
    (hv : v ∉ i.index) : i.findPos v = -1 := by
  have hsle : i.index.Sorted (· ≤ ·) := hs.imp le_of_lt
  obtain ⟨c, hc1, hc2, hc3⟩ := exists_lowerBound v i.index hsle
  have hsearch : uintSlice.Search i.index v = c := Search_eq_of_bounds _ _ _ hc1 hc2 hc3
  rw [Migrations.findPos]
  by_cases hlen : 0 < i.index.length
  · rw [if_pos hlen]
    simp only [hsearch]
    rw [if_neg]
    rintro ⟨hlt, heq⟩
    apply hv
    rw [← heq, List.getD_eq_getElem _ _ hlt]
    exact List.getElem_mem _
  · rw [if_neg hlen]

theorem Next_of_getD (i : Migrations) (hs : i.index.Sorted (· < ·)) (k : Nat)
    (hk : k + 1 < i.index.length) :
    i.Next (i.index.getD k 0) = (i.index.getD (k + 1) 0, true) := by
  have hpos := findPos_of_getD i hs k (by omega)
  rw [Migrations.Next]
  simp only [hpos]
  rw [if_pos (by constructor <;> omega)]
  have ht : ((k : Int) + 1).toNat = k + 1 := by omega
  rw [ht]

theorem Next_of_last (i : Migrations) (hs : i.index.Sorted (· < ·))
    (hne : i.index ≠ []) :
    i.Next (i.index.getD (i.index.length - 1) 0) = (0, false) := by
  have hlen : 0 < i.index.length := List.length_pos.mpr hne
  have hpos := findPos_of_getD i hs (i.index.length - 1) (by omega)
  rw [Migrations.Next]
  simp only [hpos]
  rw [if_neg]
  rintro ⟨_, h2⟩
  omega

theorem Prev_of_getD (i : Migrations) (hs : i.index.Sorted (· < ·)) (k : Nat)
    (hk : k + 1 < i.index.length) :
    i.Prev (i.index.getD (k + 1) 0) = (i.index.getD k 0, true) := by
  have hpos := findPos_of_getD i hs (k + 1) hk
  rw [Migrations.Prev]
  simp only [hpos]
  rw [if_pos (by constructor <;> omega)]
  have ht : (((k + 1 : Nat) : Int) - 1).toNat = k := by omega
  rw [ht]

theorem Prev_of_head (i : Migrations) (hs : i.index.Sorted (· < ·))
    (hne : i.index ≠ []) : i.Prev (i.index.getD 0 0) = (0, false) := by
  have hlen : 0 < i.index.length := List.length_pos.mpr hne
  have hpos := findPos_of_getD i hs 0 (by omega)
  rw [Migrations.Prev]
  simp only [hpos]
  rw [if_neg]
  rintro ⟨h1, _⟩
  omega

theorem Next_of_not_mem (i : Migrations) (hs : i.index.Sorted (· < ·)) (v : Nat)
    (hv : v ∉ i.index) : i.Next v = (0, false) := by
  have hpos := findPos_of_not_mem i hs v hv
  rw [Migrations.Next]
  simp only [hpos]
  rw [if_neg]
  rintro ⟨h1, _⟩
  omega

theorem Prev_of_not_mem (i : Migrations) (hs : i.index.Sorted (· < ·)) (v : Nat)
    (hv : v ∉ i.index) : i.Prev v = (0, false) := by
  have hpos := findPos_of_not_mem i hs v hv
  rw [Migrations.Prev]
  simp only [hpos]
  rw [if_neg]
  rintro ⟨h1, _⟩
  omega

/-! UpdateStatus lemmas. -/

theorem updateStatus_not_indexed (i : Migrations) (v : Nat) (st : Status) (e : String)
    (h : alLookup v i.migrations = none) : i.UpdateStatus v st e = i := by
  simp only [Migrations.UpdateStatus, h]

theorem updateStatus_index (i : Migrations) (v : Nat) (st : Status) (e : String) :
    (i.UpdateStatus v st e).index = i.index := by
  cases h : alLookup v i.migrations with
  | none => simp only [Migrations.UpdateStatus, h]
  | some mp0 => simp only [Migrations.UpdateStatus, h]

theorem updateStatus_keys (i : Migrations) (v : Nat) (st : Status) (e : String) :
    keys (i.UpdateStatus v st e).migrations = keys i.migrations := by
  cases h : alLookup v i.migrations with
  | none => simp only [Migrations.UpdateStatus, h]
  | some mp0 =>
    simp only [Migrations.UpdateStatus, h]
    have hm : v ∈ keys i.migrations := by
      rw [keys, ← alLookup_isSome_iff_mem, h]
      rfl
    exact keys_alInsert_of_mem _ _ _ hm

theorem updateStatus_goodIndex (i : Migrations) (v : Nat) (st : Status) (e : String)
    (hg : goodIndex i) : goodIndex (i.UpdateStatus v st e) := by
  rw [goodIndex, updateStatus_index, updateStatus_keys]
  exact hg

theorem updateStatus_dirLookup_self (i : Migrations) (v : Nat) (st : Status)
    (e : String) (d : Direction) :
    dirLookup (i.UpdateStatus v st e) v d =
      (dirLookup i v d).map (fun m => { m with Status := st, Error := e }) := by
  cases hl : alLookup v i.migrations with
  | none =>
    simp only [Migrations.UpdateStatus, hl]
    rw [dirLookup, mapGet, hl, Option.getD_none, DirMap.get_default]
    rfl
  | some mp0 =>
    have hrhs : dirLookup i v d = mp0.get d := by
      rw [dirLookup, mapGet, hl, Option.getD_some]
    simp only [Migrations.UpdateStatus, hl]
    rw [hrhs]
    show (mapGet (alInsert v _ i.migrations) v).get d = _
    rw [mapGet_alInsert_self]
    obtain ⟨u, dn⟩ := mp0
    cases u <;> cases dn <;> cases d <;>
      simp [DirMap.get, DirMap.set]

theorem updateStatus_mapGet_other (i : Migrations) (v : Nat) (st : Status)
    (e : String) (w : Nat) (h : w ≠ v) :
    mapGet (i.UpdateStatus v st e).migrations w = mapGet i.migrations w := by
  cases hl : alLookup v i.migrations with
  | none => simp only [Migrations.UpdateStatus, hl]
  | some mp0 =>
    simp only [Migrations.UpdateStatus, hl]
    exact mapGet_alInsert_ne _ _ _ _ h

theorem updateStatus_dirLookup_other (i : Migrations) (v : Nat) (st : Status)
    (e : String) (w : Nat) (d : Direction) (h : w ≠ v) :
    dirLookup (i.UpdateStatus v st e) w d = dirLookup i w d := by
  rw [dirLookup, dirLookup, updateStatus_mapGet_other i v st e w h]

/-! MarkSkipMigrations lemmas. -/

/-- The range condition of the MarkSkipMigrations loop. -/
def skipCond (dir : Direction) (version w : Nat) : Prop :=
  (dir = .Up ∧ w ≤ version) ∨ (dir = .Down ∧ version ≤ w)

instance (dir : Direction) (version w : Nat) : Decidable (skipCond dir version w) := by
  unfold skipCond
  infer_instance

/-- The per-record effect of MarkSkipMigrations. -/
def skipRec (m : Migration) : Migration := { m with Status := .Skipped }

/-- The per-entry effect of the whole MarkSkipMigrations loop. -/
def markEntry (l : List Nat) (version : Nat) (dir : Direction)
    (kv : Nat × DirMap) : Nat × DirMap :=
  if kv.1 ∈ l ∧ skipCond dir version kv.1 then
    (kv.1, kv.2.set dir ((kv.2.get dir).map skipRec))
  else kv

/-- The effect of the whole MarkSkipMigrations loop on the map. -/
def markAll (mp : MigMap) (l : List Nat) (version : Nat) (dir : Direction) : MigMap :=
  mp.map (markEntry l version dir)

theorem skipRec_skipRec (m : Migration) : skipRec (skipRec m) = skipRec m := rfl

theorem markEntry_fst (l : List Nat) (version : Nat) (dir : Direction)
    (kv : Nat × DirMap) : (markEntry l version dir kv).1 = kv.1 := by
  rw [markEntry]
  by_cases h : kv.1 ∈ l ∧ skipCond dir version kv.1
  · rw [if_pos h]
  · rw [if_neg h]

theorem markAll_keys (mp : MigMap) (l : List Nat) (version : Nat) (dir : Direction) :
    keys (markAll mp l version dir) = keys mp := by
  show (mp.map (markEntry l version dir)).map Prod.fst = mp.map Prod.fst
  rw [List.map_map]
  exact List.map_congr_left (fun kv _ => markEntry_fst l version dir kv)

theorem markAll_nil (mp : MigMap) (version : Nat) (dir : Direction) :
    markAll mp [] version dir = mp := by
  show mp.map (markEntry [] version dir) = mp
  have h : ∀ kv ∈ mp, markEntry [] version dir kv = kv := by
    intro kv _
    rw [markEntry, if_neg]
    rintro ⟨h1, _⟩
    simp at h1
  rw [List.map_congr_left h]
  exact List.map_id' mp

theorem markStep_eq (mp : MigMap) (w version : Nat) (dir : Direction) :
    markStep mp w version dir =
      if skipCond dir version w then setSkipped mp w dir else some mp := by
  cases dir <;> by_cases h : w ≤ version <;>
    by_cases h2 : version ≤ w <;>
    simp [markStep, skipCond, h, h2]

theorem alLookup_cons_fst_eq {κ α : Type} [DecidableEq κ] (w : κ) (p : κ × α)
    (rest : List (κ × α)) (h : p.1 = w) : alLookup w (p :: rest) = some p.2 := by
  obtain ⟨k0, a0⟩ := p
  subst h
  simp [alLookup]

theorem alLookup_cons_fst_ne {κ α : Type} [DecidableEq κ] (w : κ) (p : κ × α)
    (rest : List (κ × α)) (h : p.1 ≠ w) :
    alLookup w (p :: rest) = alLookup w rest := by
  obtain ⟨k0, a0⟩ := p
  simp only [alLookup]
  rw [if_neg h]

theorem alLookup_markAll (mp : MigMap) (l : List Nat) (version : Nat)
    (dir : Direction) (w : Nat) :
    alLookup w (markAll mp l version dir) =
      (alLookup w mp).map (fun e =>
        if w ∈ l ∧ skipCond dir version w then
          e.set dir ((e.get dir).map skipRec)
        else e) := by
  induction mp with
  | nil => rfl
  | cons kv rest ih =>
    obtain ⟨k, e⟩ := kv
    show alLookup w (markEntry l version dir (k, e) :: markAll rest l version dir) = _
    by_cases hk : k = w
    · subst hk
      rw [alLookup_cons_fst_eq k _ _ (markEntry_fst l version dir (k, e))]
      rw [alLookup_cons_fst_eq k (k, e) rest rfl]
      rw [Option.map_some']
      by_cases hc : k ∈ l ∧ skipCond dir version k
      · simp only [markEntry, if_pos hc]
      · simp only [markEntry, if_neg hc]
    · have hne : (markEntry l version dir (k, e)).1 ≠ w := by
        rw [markEntry_fst]
        exact hk
      rw [alLookup_cons_fst_ne w _ _ hne]
      rw [alLookup_cons_fst_ne w (k, e) rest hk]
      exact ih

theorem mapGet_markAll (mp : MigMap) (l : List Nat) (version : Nat)
    (dir : Direction) (w : Nat) :
    mapGet (markAll mp l version dir) w =
      if w ∈ l ∧ skipCond dir version w then
        (mapGet mp w).set dir ((mapGet mp w).get dir |>.map skipRec)
      else mapGet mp w := by
  rw [mapGet, mapGet, alLookup_markAll]
  cases alLookup w mp with
  | none =>
    by_cases hc : w ∈ l ∧ skipCond dir version w
    · rw [if_pos hc]
      simp only [Option.map_none', Option.getD_none, DirMap.get_default,
        Option.map_none']
      cases dir <;> rfl
    · rw [if_neg hc]
      rfl
  | some e =>
    by_cases hc : w ∈ l ∧ skipCond dir version w
    · rw [if_pos hc, Option.map_some', Option.getD_some, Option.getD_some, if_pos hc]
    · rw [if_neg hc, Option.map_some', Option.getD_some, Option.getD_some, if_neg hc]

theorem setSkipped_eq (mp : MigMap) (w : Nat) (dir : Direction) (mx : Migration)
    (h : (mapGet mp w).get dir = some mx) :
    setSkipped mp w dir =
      some (alInsert w ((mapGet mp w).set dir (some (skipRec mx))) mp) := by
  rw [setSkipped]
  simp only [h]
  rfl

theorem setSkipped_none (mp : MigMap) (w : Nat) (dir : Direction)
    (h : (mapGet mp w).get dir = none) : setSkipped mp w dir = none := by
  rw [setSkipped]
  simp only [h]

theorem slot_isSome_alInsert_set (mp : MigMap) (w : Nat) (dir : Direction)
    (mx x : Migration) (h : (mapGet mp w).get dir = some mx) (u : Nat) (d2 : Direction) :
    ((mapGet (alInsert w ((mapGet mp w).set dir (some x)) mp) u).get d2).isSome =
      ((mapGet mp u).get d2).isSome := by
  by_cases hu : u = w
  · subst hu
    rw [mapGet_alInsert_self]
    by_cases hd : d2 = dir
    · subst hd
      rw [DirMap.get_set_self, h]
      rfl
    · rw [DirMap.get_set_ne _ _ _ _ hd]
  · rw [mapGet_alInsert_ne _ _ _ _ hu]

theorem markFold_some_slots (l : List Nat) (mp mp2 : MigMap) (version : Nat)
    (dir : Direction) (h : markFold mp l version dir = some mp2) :
    ∀ w ∈ l, skipCond dir version w → ((mapGet mp w).get dir).isSome := by
  induction l generalizing mp with
  | nil => simp
  | cons w0 ws ih =>
    rw [markFold, markStep_eq] at h
    intro w hw hcond
    by_cases hc0 : skipCond dir version w0
    · rw [if_pos hc0] at h
      cases hslot : (mapGet mp w0).get dir with
      | none =>
        rw [setSkipped_none mp w0 dir hslot] at h
        exact absurd h (by simp)
      | some mx =>
        rw [setSkipped_eq mp w0 dir mx hslot] at h
        rw [Option.some_bind] at h
        rcases List.mem_cons.mp hw with rfl | hw2
        · rw [hslot]
          rfl
        · have := ih _ h w hw2 hcond
          rw [← slot_isSome_alInsert_set mp w0 dir mx (skipRec mx) hslot w dir]
          exact this
    · rw [if_neg hc0, Option.some_bind] at h
      rcases List.mem_cons.mp hw with rfl | hw2
      · exact absurd hcond hc0
      · exact ih _ h w hw2 hcond

theorem not_mem_cons_and (k w0 : Nat) (ws : List Nat) (P : Prop) (hk : k ≠ w0)
    (hws : k ∉ ws) : ¬(k ∈ w0 :: ws ∧ P) := by
  rintro ⟨ha, _⟩
  rcases List.mem_cons.mp ha with h | h
  · exact hk h
  · exact hws h

theorem alInsert_eq_map_of_mem_nodup (w : Nat) (x : DirMap) (mp : MigMap)
    (hn : nodupKeys mp) (hm : w ∈ keys mp) :
    alInsert w x mp = mp.map (fun kv => if kv.1 = w then (w, x) else kv) := by
  induction mp with
  | nil => simp [keys] at hm
  | cons kv rest ih =>
    obtain ⟨k, e⟩ := kv
    rw [nodupKeys, keys, List.map_cons, List.nodup_cons] at hn
    by_cases hk : k = w
    · subst hk
      show alInsert k x ((k, e) :: rest) = _
      rw [alInsert, if_pos rfl]
      rw [List.map_cons]
      show (k, x) :: rest = (if ((k, e) : Nat × DirMap).1 = k then (k, x) else (k, e)) :: _
      rw [if_pos rfl]
      congr 1
      have hrest : ∀ kv2 ∈ rest, (fun kv => if kv.1 = k then (k, x) else kv) kv2 = kv2 := by
        intro kv2 hkv2
        have hne : kv2.1 ≠ k := by
          intro heq
          exact hn.1 (heq ▸ List.mem_map.mpr ⟨kv2, hkv2, rfl⟩)
        simp only [if_neg hne]
      rw [List.map_congr_left hrest]
      exact (List.map_id' rest).symm
    · have hm0 : w ∈ k :: keys rest := hm
      have hm2 : w ∈ keys rest := by
        rcases List.mem_cons.mp hm0 with h | h
        · exact absurd h.symm hk
        · exact h
      show alInsert w x ((k, e) :: rest) = _
      rw [alInsert, if_neg hk]
      rw [List.map_cons]
      show (k, e) :: alInsert w x rest =
        (if ((k, e) : Nat × DirMap).1 = w then (w, x) else (k, e)) :: _
      rw [if_neg hk]
      congr 1
      exact ih hn.2 hm2

theorem nodupKeys_alInsert_of_mem (w : Nat) (x : DirMap) (mp : MigMap)
    (hn : nodupKeys mp) (hm : w ∈ keys mp) : nodupKeys (alInsert w x mp) := by
  rw [nodupKeys, keys, keys_alInsert_of_mem _ _ _ hm]
  exact hn

theorem mem_keys_of_slot_isSome (mp : MigMap) (w : Nat) (dir : Direction)
    (h : ((mapGet mp w).get dir).isSome) : w ∈ keys mp := by
  rw [keys, ← alLookup_isSome_iff_mem]
  cases hl : alLookup w mp with
  | none =>
    rw [mapGet, hl, Option.getD_none, DirMap.get_default] at h
    exact absurd h (by simp)
  | some e => rfl

theorem markFold_eq_markAll (l : List Nat) (mp : MigMap) (version : Nat)
    (dir : Direction) (hn : nodupKeys mp)
    (hslots : ∀ w ∈ l, skipCond dir version w → ((mapGet mp w).get dir).isSome) :
    markFold mp l version dir = some (markAll mp l version dir) := by
  induction l generalizing mp with
  | nil => rw [markFold, markAll_nil]
  | cons w0 ws ih =>
    rw [markFold, markStep_eq]
    by_cases hc0 : skipCond dir version w0
    · obtain ⟨mx, hmx⟩ := Option.isSome_iff_exists.mp
        (hslots w0 (List.mem_cons_self _ _) hc0)
      rw [if_pos hc0, setSkipped_eq mp w0 dir mx hmx, Option.some_bind]
      have hmem : w0 ∈ keys mp := mem_keys_of_slot_isSome mp w0 dir (by rw [hmx]; rfl)
      set mp1 := alInsert w0 ((mapGet mp w0).set dir (some (skipRec mx))) mp with hmp1
      have hn1 : nodupKeys mp1 := nodupKeys_alInsert_of_mem _ _ _ hn hmem
      have hslots1 : ∀ w ∈ ws, skipCond dir version w →
          ((mapGet mp1 w).get dir).isSome := by
        intro w hw hcond
        rw [hmp1, slot_isSome_alInsert_set mp w0 dir mx (skipRec mx) hmx w dir]
        exact hslots w (List.mem_cons_of_mem _ hw) hcond
      rw [ih mp1 hn1 hslots1]
      congr 1
      rw [hmp1, alInsert_eq_map_of_mem_nodup w0 _ mp hn hmem]
      show (mp.map _).map (markEntry ws version dir) = mp.map (markEntry (w0 :: ws) version dir)
      rw [List.map_map]
      refine List.map_congr_left ?_
      intro kv hkv
      obtain ⟨k, e⟩ := kv
      show markEntry ws version dir (if k = w0 then (w0, _) else (k, e)) =
        markEntry (w0 :: ws) version dir (k, e)
      by_cases hk : k = w0
      · subst hk
        rw [if_pos rfl]
        have he : alLookup k mp = some e := alLookup_eq_some_of_mem_nodup k e mp hn hkv
        have hge : mapGet mp k = e := by rw [mapGet, he, Option.getD_some]
        rw [hge] at hmx
        rw [hge]
        by_cases hws : k ∈ ws
        · rw [markEntry, if_pos ⟨hws, hc0⟩]
          rw [markEntry, if_pos ⟨List.mem_cons_self _ _, hc0⟩]
          show (k, (DirMap.set e dir (some (skipRec mx))).set dir _) = _
          rw [DirMap.get_set_self, DirMap.set_set, Option.map_some', skipRec_skipRec, hmx,
            Option.map_some']
        · rw [markEntry, if_neg (by rintro ⟨h1, _⟩; exact hws h1)]
          rw [markEntry, if_pos ⟨List.mem_cons_self _ _, hc0⟩]
          show (k, DirMap.set e dir (some (skipRec mx))) = (k, e.set dir ((e.get dir).map skipRec))
          rw [hmx, Option.map_some']
      · rw [if_neg hk]
        rw [markEntry, markEntry]
        by_cases hws : k ∈ ws
        · have h1 : ((k, e) : Nat × DirMap).1 ∈ ws ∧ skipCond dir version k ↔
              ((k, e) : Nat × DirMap).1 ∈ w0 :: ws ∧ skipCond dir version k := by
            constructor
            · rintro ⟨ha, hb⟩
              exact ⟨List.mem_cons_of_mem _ ha, hb⟩
            · rintro ⟨ha, hb⟩
              exact ⟨hws, hb⟩
          by_cases hcc : skipCond dir version k
          · rw [if_pos ⟨hws, hcc⟩, if_pos ⟨List.mem_cons_of_mem _ hws, hcc⟩]
          · rw [if_neg (by rintro ⟨_, hb⟩; exact hcc hb),
              if_neg (by rintro ⟨_, hb⟩; exact hcc hb)]
        · rw [if_neg (by rintro ⟨ha, _⟩; exact hws ha),
            if_neg (not_mem_cons_and _ _ _ _ hk hws)]
    · rw [if_neg hc0, Option.some_bind]
      have hslots2 : ∀ w ∈ ws, skipCond dir version w →
          ((mapGet mp w).get dir).isSome := fun w hw hcond =>
        hslots w (List.mem_cons_of_mem _ hw) hcond
      rw [ih mp hn hslots2]
      congr 1
      refine List.map_congr_left ?_
      intro kv hkv
      obtain ⟨k, e⟩ := kv
      rw [markEntry, markEntry]
      by_cases hk : k = w0
      · subst hk
        rw [if_neg (by rintro ⟨_, hb⟩; exact hc0 hb),
          if_neg (by rintro ⟨_, hb⟩; exact hc0 hb)]
      · by_cases hws : k ∈ ws
        · by_cases hcc : skipCond dir version k
          · rw [if_pos ⟨hws, hcc⟩, if_pos ⟨List.mem_cons_of_mem _ hws, hcc⟩]
          · rw [if_neg (by rintro ⟨_, hb⟩; exact hcc hb),
              if_neg (by rintro ⟨_, hb⟩; exact hcc hb)]
        · rw [if_neg (by rintro ⟨ha, _⟩; exact hws ha),
            if_neg (not_mem_cons_and _ _ _ _ hk hws)]

theorem skipCond_Up (version w : Nat) : skipCond .Up version w ↔ w ≤ version := by
  simp [skipCond]

theorem skipCond_Down (version w : Nat) : skipCond .Down version w ↔ version ≤ w := by
  simp [skipCond]

theorem markSkip_some_slots (i : Migrations) (version : Nat) (dir : Direction)
    (i2 : Migrations) (h : i.MarkSkipMigrations version dir = some i2) :
    ∀ w ∈ i.index, skipCond dir version w →
      ((mapGet i.migrations w).get dir).isSome := by
  rw [Migrations.MarkSkipMigrations] at h
  cases hf : markFold i.migrations i.index version dir with
  | none =>
    rw [hf] at h
    exact absurd h (by simp)
  | some mp2 => exact markFold_some_slots i.index i.migrations mp2 version dir hf

theorem markSkip_success (i : Migrations) (version : Nat) (dir : Direction)
    (hn : nodupKeys i.migrations)
    (hslots : ∀ w ∈ i.index, skipCond dir version w →
      ((mapGet i.migrations w).get dir).isSome) :
    i.MarkSkipMigrations version dir =
      some { i with migrations := markAll i.migrations i.index version dir } := by
  rw [Migrations.MarkSkipMigrations,
    markFold_eq_markAll i.index i.migrations version dir hn hslots, Option.map_some']

theorem markSkip_eq (i : Migrations) (version : Nat) (dir : Direction)
    (hn : nodupKeys i.migrations) (i2 : Migrations)
    (h : i.MarkSkipMigrations version dir = some i2) :
    i2 = { i with migrations := markAll i.migrations i.index version dir } := by
  have hs := markSkip_success i version dir hn (markSkip_some_slots i version dir i2 h)
  rw [h] at hs
  exact Option.some_inj.mp hs

theorem markEntry_idem (l : List Nat) (version : Nat) (dir : Direction)
    (kv : Nat × DirMap) :
    markEntry l version dir (markEntry l version dir kv) = markEntry l version dir kv := by
  obtain ⟨k, e⟩ := kv
  by_cases hc : k ∈ l ∧ skipCond dir version k
  · have h1 : markEntry l version dir (k, e) =
        (k, e.set dir ((e.get dir).map skipRec)) := by
      rw [markEntry, if_pos hc]
    rw [h1, markEntry, if_pos hc]
    show (k, (DirMap.set e dir _).set dir _) = _
    rw [DirMap.get_set_self, DirMap.set_set]
    congr 2
    cases hg : e.get dir with
    | none => rfl
    | some mx => simp only [Option.map_some', skipRec_skipRec]
  · have h1 : markEntry l version dir (k, e) = (k, e) := by
      rw [markEntry, if_neg hc]
    rw [h1, h1]

theorem markAll_idem (mp : MigMap) (l : List Nat) (version : Nat) (dir : Direction) :
    markAll (markAll mp l version dir) l version dir = markAll mp l version dir := by
  show (mp.map _).map _ = mp.map _
  rw [List.map_map]
  exact List.map_congr_left (fun kv _ => markEntry_idem l version dir kv)

theorem markSkip_index (i : Migrations) (version : Nat) (dir : Direction)
    (i2 : Migrations) (h : i.MarkSkipMigrations version dir = some i2) :
    i2.index = i.index := by
  rw [Migrations.MarkSkipMigrations] at h
  cases hf : markFold i.migrations i.index version dir with
  | none =>
    rw [hf] at h
    exact absurd h (by simp)
  | some mp2 =>
    rw [hf, Option.map_some'] at h
    rw [← Option.some_inj.mp h]

theorem markSkip_idem (i : Migrations) (version : Nat) (dir : Direction)
    (i2 : Migrations) (hn : nodupKeys i.migrations)
    (h : i.MarkSkipMigrations version dir = some i2) :
    i2.MarkSkipMigrations version dir = some i2 := by
  have hslots := markSkip_some_slots i version dir i2 h
  have hi2 := markSkip_eq i version dir hn i2 h
  have hn2 : nodupKeys i2.migrations := by
    rw [hi2]
    show nodupKeys (markAll i.migrations i.index version dir)
    rw [nodupKeys, markAll_keys]
    exact hn
  have hslots2 : ∀ w ∈ i2.index, skipCond dir version w →
      ((mapGet i2.migrations w).get dir).isSome := by
    intro w hw hcond
    rw [markSkip_index i version dir i2 h] at hw
    have hmg : mapGet i2.migrations w =
        (mapGet i.migrations w).set dir ((mapGet i.migrations w).get dir |>.map skipRec) := by
      rw [hi2]
      show mapGet (markAll i.migrations i.index version dir) w = _
      rw [mapGet_markAll, if_pos ⟨hw, hcond⟩]
    rw [hmg, DirMap.get_set_self]
    have := hslots w hw hcond
    cases hg : (mapGet i.migrations w).get dir with
    | none =>
      rw [hg] at this
      exact absurd this (by simp)
    | some mx => rfl
  have hs2 := markSkip_success i2 version dir hn2 hslots2
  rw [hs2]
  have hmig : i2.migrations = markAll i.migrations i.index version dir := by rw [hi2]
  have hidx : i2.index = i.index := markSkip_index i version dir i2 h
  congr 1
  cases i2 with
  | mk idx mig =>
    simp only at hmig hidx
    congr 1
    rw [hmig, hidx]
    exact markAll_idem i.migrations i.index version dir

theorem markFold_keys (l : List Nat) (mp mp2 : MigMap) (version : Nat)
    (dir : Direction) (h : markFold mp l version dir = some mp2) :
    keys mp2 = keys mp := by
  induction l generalizing mp with
  | nil =>
    rw [markFold] at h
    rw [Option.some_inj.mp h]
  | cons w0 ws ih =>
    rw [markFold, markStep_eq] at h
    by_cases hc0 : skipCond dir version w0
    · rw [if_pos hc0] at h
      cases hslot : (mapGet mp w0).get dir with
      | none =>
        rw [setSkipped_none mp w0 dir hslot] at h
        exact absurd h (by simp)
      | some mx =>
        rw [setSkipped_eq mp w0 dir mx hslot, Option.some_bind] at h
        have hmem : w0 ∈ keys mp :=
          mem_keys_of_slot_isSome mp w0 dir (by rw [hslot]; rfl)
        have hkeys1 : keys (alInsert w0 ((mapGet mp w0).set dir
            (some (skipRec mx))) mp) = keys mp := keys_alInsert_of_mem _ _ _ hmem
        rw [ih _ h, hkeys1]
    · rw [if_neg hc0, Option.some_bind] at h
      exact ih _ h

theorem markSkip_goodIndex (i : Migrations) (version : Nat) (dir : Direction)
    (i2 : Migrations) (hg : goodIndex i)
    (h : i.MarkSkipMigrations version dir = some i2) : goodIndex i2 := by
  rw [Migrations.MarkSkipMigrations] at h
  cases hf : markFold i.migrations i.index version dir with
  | none =>
    rw [hf] at h
    exact absurd h (by simp)
  | some mp2 =>
    rw [hf, Option.map_some'] at h
    rw [goodIndex, ← Option.some_inj.mp h]
    show i.index = sortNat (keys mp2)
    rw [markFold_keys i.index i.migrations mp2 version dir hf]
    exact hg

/-! Source drivers: iofs and Google Cloud Storage.

The filename parser (source.DefaultParse) is an external collaborator of
both drivers and is taken as a parameter parse : String -> Option Migration.
The backing stores (io/fs.FS, the GCS bucket) are taken as read functions. -/

/-- The characters after the last slash of a character list. -/
def lastComponentAux (acc : List Char) : List Char → List Char
  | [] => acc.reverse
  | c :: cs => if c = '/' then lastComponentAux [] cs else lastComponentAux (c :: acc) cs

/-- Models Go filepath.Base for the slash-separated relative paths used
here: the component after the last slash. -/
def baseName (s : String) : String := ⟨lastComponentAux [] s.data⟩

/-- Models the file part of Go path.Split: everything after the last slash. -/
def pathSplitFile (s : String) : String := ⟨lastComponentAux [] s.data⟩

/-- Models Go path.Join for a nonempty cleaned base and a relative name. -/
def pathJoin (a b : String) : String := a ++ ("/") ++ b

/-- One entry seen by the fs.WalkDir callback in iofs Init. -/
structure FsEntry where
  path : String
  name : String
  isDir : Bool
  infoErr : Option String
deriving DecidableEq, Repr

/-- The errors the iofs Init walk can return. -/
inductive InitErr where
  | infoErr (e : String)
  | duplicate (m : Migration)
deriving DecidableEq, Repr

/-- The fs.WalkDir loop of PartialDriver.Init. -/
def iofsInitLoop (parse : String → Option Migration) (ms : Migrations) :
    List FsEntry → Except InitErr Migrations
  | [] => .ok ms
  | e :: rest =>
    if e.isDir then iofsInitLoop parse ms rest
    else
      match parse e.name with
      | none => iofsInitLoop parse ms rest
      | some m =>
        let m2 := { m with Raw := e.path }
        match e.infoErr with
        | some err => .error (.infoErr err)
        | none =>
          match ms.Append (some m2) with
          | (ms2, true) => iofsInitLoop parse ms2 rest
          | (_, false) => .error (.duplicate m2)

/-- Go struct PartialDriver; the fs.FS handle is an opaque value. -/
structure PartialDriver (σ : Type) where
  migrations : Migrations
  fsys : σ
  path : String

/-- Go: func (d *PartialDriver) Init(fsys fs.FS, path string) error. -/
def PartialDriver.Init (σ : Type) (parse : String → Option Migration)
    (entries : List FsEntry) (fsys : σ) (path : String) :
    Except InitErr (PartialDriver σ) :=
  (iofsInitLoop parse NewMigrations entries).map (fun ms => ⟨ms, fsys, path⟩)

/-- The errors gcs loadMigrations can return. -/
inductive GcsLoadErr where
  | appendErr (objectName : String)
  | iterErr (e : String)
deriving DecidableEq, Repr

/-- The object-iterator loop of gcs loadMigrations. -/
def gcsLoadLoop (parse : String → Option Migration) (ms : Migrations) :
    List String → Except GcsLoadErr Migrations
  | [] => .ok ms
  | objName :: rest =>
    match parse (pathSplitFile objName) with
    | none => gcsLoadLoop parse ms rest
    | some m =>
      match ms.Append (some m) with
      | (ms2, true) => gcsLoadLoop parse ms2 rest
      | (_, false) => .error (.appendErr objName)

/-- Go: func (g *gcs) loadMigrations() error. The iterator yields the
object names and then terminates with iterator.Done (none) or an
iteration error (some). -/
def gcsLoadMigrations (parse : String → Option Migration) (objects : List String)
    (iterEnd : Option String) (ms : Migrations) : Except GcsLoadErr Migrations :=
  match gcsLoadLoop parse ms objects with
  | .error e => .error e
  | .ok ms2 =>
    match iterEnd with
    | none => .ok ms2
    | some e => .error (.iterErr e)

/-- The errors an iofs read can return: a fs.PathError carrying
fs.ErrNotExist for a missing migration, or a backend I/O error. -/
inductive ReadErr where
  | notExist (op p : String)
  | ioErr (e : String)
deriving DecidableEq, Repr

/-- Go: func (d *PartialDriver) open(path string). The path-wrapping of
non-PathError errors keeps the error an I/O error, so it is dropped here. -/
def PartialDriver.openFile {σ S : Type} (openF : σ → String → Except String S)
    (d : PartialDriver σ) (p : String) : Except String S := openF d.fsys p

/-- Go: func (d *PartialDriver) ReadUp(version uint). Returns the tuple
(stream, identifier, location, function, error). -/
def PartialDriver.ReadUp {σ S F : Type} (reg : List (String × F))
    (openF : σ → String → Except String S) (d : PartialDriver σ) (version : Nat) :
    Option S × String × String × Option F × Option ReadErr :=
  match d.migrations.Up version with
  | (some m, true) =>
    match alLookup (baseName m.Raw) reg with
    | some fn => (none, m.Identifier, m.Raw, some fn, none)
    | none =>
      match PartialDriver.openFile openF d m.Raw with
      | .error e => (none, ("") , ("") , none, some (.ioErr e))
      | .ok body => (some body, m.Identifier, m.Raw, none, none)
  | _ =>
    (none, ("") , ("") , none,
      some (.notExist (("read up for version ") ++ toString version) d.path))

/-- Go: func (d *PartialDriver) ReadDown(version uint). -/
def PartialDriver.ReadDown {σ S F : Type} (reg : List (String × F))
    (openF : σ → String → Except String S) (d : PartialDriver σ) (version : Nat) :
    Option S × String × String × Option F × Option ReadErr :=
  match d.migrations.Down version with
  | (some m, true) =>
    match alLookup (baseName m.Raw) reg with
    | some fn => (none, m.Identifier, m.Raw, some fn, none)
    | none =>
      match PartialDriver.openFile openF d m.Raw with
      | .error e => (none, ("") , ("") , none, some (.ioErr e))
      | .ok body => (some body, m.Identifier, m.Raw, none, none)
  | _ =>
    (none, ("") , ("") , none,
      some (.notExist (("read down for version ") ++ toString version) d.path))

/-- The errors a gcs read can return: os.ErrNotExist or a reader error. -/
inductive GcsReadErr where
  | notExist
  | ioErr (e : String)
deriving DecidableEq, Repr

/-- Go struct gcs; pfx is the Go field named prefix, and the bucket
handle is the readObj function. -/
structure Gcs where
  pfx : String
  migrations : Migrations

/-- Go: func (g *gcs) open(m *source.Migration). Note it never consults
the function registry: the function component is always nil. -/
def Gcs.openObject (S F : Type) (readObj : String → Except String S) (g : Gcs)
    (m : Migration) : Option S × String × String × Option F × Option GcsReadErr :=
  let objectPath := pathJoin g.pfx m.Raw
  match readObj objectPath with
  | .error e => (none, ("") , ("") , none, some (.ioErr e))
  | .ok reader => (some reader, m.Identifier, m.Raw, none, none)

/-- Go: func (g *gcs) ReadUp(version uint). -/
def Gcs.ReadUp (S F : Type) (readObj : String → Except String S) (g : Gcs)
    (version : Nat) : Option S × String × String × Option F × Option GcsReadErr :=
  match g.migrations.Up version with
  | (some m, true) => Gcs.openObject S F readObj g m
  | _ => (none, ("") , ("") , none, some .notExist)

/-- Go: func (g *gcs) ReadDown(version uint). -/
def Gcs.ReadDown (S F : Type) (readObj : String → Except String S) (g : Gcs)
    (version : Nat) : Option S × String × String × Option F × Option GcsReadErr :=
  match g.migrations.Down version with
  | (some m, true) => Gcs.openObject S F readObj g m
  | _ => (none, ("") , ("") , none, some .notExist)

theorem Up_eq_dirLookup (i : Migrations) (v : Nat) :
    i.Up v = (dirLookup i v .Up, (dirLookup i v .Up).isSome) := by
  cases hl : alLookup v i.migrations with
  | none =>
    have h : dirLookup i v .Up = none := by
      rw [dirLookup, mapGet, hl, Option.getD_none, DirMap.get_default]
    rw [h]
    simp only [Migrations.Up, hl]
    rfl
  | some mp =>
    have h : dirLookup i v .Up = mp.get .Up := by
      rw [dirLookup, mapGet, hl, Option.getD_some]
    rw [h]
    cases hg : mp.get .Up with
    | none =>
      simp only [Migrations.Up, hl, hg]
      rfl
    | some mx =>
      simp only [Migrations.Up, hl, hg]
      rfl

theorem Down_eq_dirLookup (i : Migrations) (v : Nat) :
    i.Down v = (dirLookup i v .Down, (dirLookup i v .Down).isSome) := by
  cases hl : alLookup v i.migrations with
  | none =>
    have h : dirLookup i v .Down = none := by
      rw [dirLookup, mapGet, hl, Option.getD_none, DirMap.get_default]
    rw [h]
    simp only [Migrations.Down, hl]
    rfl
  | some mp =>
    have h : dirLookup i v .Down = mp.get .Down := by
      rw [dirLookup, mapGet, hl, Option.getD_some]
    rw [h]
    cases hg : mp.get .Down with
    | none =>
      simp only [Migrations.Down, hl, hg]
      rfl
    | some mx =>
      simp only [Migrations.Down, hl, hg]
      rfl

/-! Discovery lemmas (iofs Init walk and gcs loadMigrations). -/

theorem iofsInitLoop_skip_unparsable (parse : String → Option Migration)
    (ms : Migrations) (e : FsEntry) (rest : List FsEntry)
    (hdir : e.isDir = false) (hparse : parse e.name = none) :
    iofsInitLoop parse ms (e :: rest) = iofsInitLoop parse ms rest := by
  rw [iofsInitLoop, hdir]
  simp [hparse]

theorem iofsInitLoop_dup_aborts (parse : String → Option Migration)
    (ms : Migrations) (e : FsEntry) (rest : List FsEntry) (m x : Migration)
    (hdir : e.isDir = false) (hparse : parse e.name = some m)
    (hinfo : e.infoErr = none)
    (hdup : dirLookup ms m.Version m.Direction = some x) :
    iofsInitLoop parse ms (e :: rest) =
      .error (.duplicate { m with Raw := e.path }) := by
  have hdup2 : dirLookup ms ({ m with Raw := e.path } : Migration).Version
      ({ m with Raw := e.path } : Migration).Direction = some x := hdup
  have happ := append_dup_eq ms { m with Raw := e.path } x hdup2
  rw [iofsInitLoop, hdir]
  simp only [Bool.false_eq_true, if_false, hparse, hinfo, happ]

theorem gcsLoadLoop_skip_unparsable (parse : String → Option Migration)
    (ms : Migrations) (objName : String) (rest : List String)
    (hparse : parse (pathSplitFile objName) = none) :
    gcsLoadLoop parse ms (objName :: rest) = gcsLoadLoop parse ms rest := by
  rw [gcsLoadLoop, hparse]

theorem gcsLoadLoop_dup_aborts (parse : String → Option Migration)
    (ms : Migrations) (objName : String) (rest : List String) (m x : Migration)
    (hparse : parse (pathSplitFile objName) = some m)
    (hdup : dirLookup ms m.Version m.Direction = some x) :
    gcsLoadLoop parse ms (objName :: rest) = .error (.appendErr objName) := by
  have happ := append_dup_eq ms m x hdup
  simp only [gcsLoadLoop, hparse, happ]

/-! Read lemmas. -/

theorem iofs_ReadUp_fn {σ S F : Type} (reg : List (String × F))
    (openF : σ → String → Except String S) (d : PartialDriver σ) (version : Nat)
    (m : Migration) (fn : F) (hup : d.migrations.Up version = (some m, true))
    (hreg : alLookup (baseName m.Raw) reg = some fn) :
    PartialDriver.ReadUp reg openF d version =
      (none, m.Identifier, m.Raw, some fn, none) := by
  simp only [PartialDriver.ReadUp, hup, hreg]

theorem iofs_ReadUp_stream {σ S F : Type} (reg : List (String × F))
    (openF : σ → String → Except String S) (d : PartialDriver σ) (version : Nat)
    (m : Migration) (body : S) (hup : d.migrations.Up version = (some m, true))
    (hreg : alLookup (baseName m.Raw) reg = none)
    (hok : openF d.fsys m.Raw = .ok body) :
    PartialDriver.ReadUp reg openF d version =
      (some body, m.Identifier, m.Raw, none, none) := by
  simp only [PartialDriver.ReadUp, hup, hreg, PartialDriver.openFile, hok]

theorem iofs_ReadUp_ioErr {σ S F : Type} (reg : List (String × F))
    (openF : σ → String → Except String S) (d : PartialDriver σ) (version : Nat)
    (m : Migration) (e : String) (hup : d.migrations.Up version = (some m, true))
    (hreg : alLookup (baseName m.Raw) reg = none)
    (herr : openF d.fsys m.Raw = .error e) :
    PartialDriver.ReadUp reg openF d version =
      (none, (""), (""), none, some (.ioErr e)) := by
  simp only [PartialDriver.ReadUp, hup, hreg, PartialDriver.openFile, herr]

theorem iofs_ReadUp_notFound {σ S F : Type} (reg : List (String × F))
    (openF : σ → String → Except String S) (d : PartialDriver σ) (version : Nat)
    (hup : d.migrations.Up version = (none, false)) :
    PartialDriver.ReadUp reg openF d version =
      (none, (""), (""), none,
        some (.notExist (("read up for version ") ++ toString version) d.path)) := by
  simp only [PartialDriver.ReadUp, hup]

theorem iofs_ReadDown_fn {σ S F : Type} (reg : List (String × F))
    (openF : σ → String → Except String S) (d : PartialDriver σ) (version : Nat)
    (m : Migration) (fn : F) (hdn : d.migrations.Down version = (some m, true))
    (hreg : alLookup (baseName m.Raw) reg = some fn) :
    PartialDriver.ReadDown reg openF d version =
      (none, m.Identifier, m.Raw, some fn, none) := by
  simp only [PartialDriver.ReadDown, hdn, hreg]

theorem iofs_ReadDown_stream {σ S F : Type} (reg : List (String × F))
    (openF : σ → String → Except String S) (d : PartialDriver σ) (version : Nat)
    (m : Migration) (body : S) (hdn : d.migrations.Down version = (some m, true))
    (hreg : alLookup (baseName m.Raw) reg = none)
    (hok : openF d.fsys m.Raw = .ok body) :
    PartialDriver.ReadDown reg openF d version =
      (some body, m.Identifier, m.Raw, none, none) := by
  simp only [PartialDriver.ReadDown, hdn, hreg, PartialDriver.openFile, hok]

theorem iofs_ReadDown_notFound {σ S F : Type} (reg : List (String × F))
    (openF : σ → String → Except String S) (d : PartialDriver σ) (version : Nat)
    (hdn : d.migrations.Down version = (none, false)) :
    PartialDriver.ReadDown reg openF d version =
      (none, (""), (""), none,
        some (.notExist (("read down for version ") ++ toString version) d.path)) := by
  simp only [PartialDriver.ReadDown, hdn]

theorem iofs_ReadUp_exclusive {σ S F : Type} (reg : List (String × F))
    (openF : σ → String → Except String S) (d : PartialDriver σ) (version : Nat) :
    (PartialDriver.ReadUp reg openF d version).1 = none ∨
    (PartialDriver.ReadUp reg openF d version).2.2.2.1 = none := by
  rcases hup : d.migrations.Up version with ⟨mo, b⟩
  cases mo with
  | none =>
    cases b <;> simp only [PartialDriver.ReadUp, hup] <;> exact Or.inl (by trivial)
  | some m =>
    cases b with
    | false =>
      simp only [PartialDriver.ReadUp, hup]
      exact Or.inl (by trivial)
    | true =>
      cases hreg : alLookup (baseName m.Raw) reg with
      | some fn =>
        rw [iofs_ReadUp_fn reg openF d version m fn hup hreg]
        exact Or.inl (by trivial)
      | none =>
        cases hopen : openF d.fsys m.Raw with
        | error e =>
          rw [iofs_ReadUp_ioErr reg openF d version m e hup hreg hopen]
          exact Or.inl (by trivial)
        | ok body =>
          rw [iofs_ReadUp_stream reg openF d version m body hup hreg hopen]
          exact Or.inr (by trivial)

theorem iofs_ReadDown_exclusive {σ S F : Type} (reg : List (String × F))
    (openF : σ → String → Except String S) (d : PartialDriver σ) (version : Nat) :
    (PartialDriver.ReadDown reg openF d version).1 = none ∨
    (PartialDriver.ReadDown reg openF d version).2.2.2.1 = none := by
  rcases hdn : d.migrations.Down version with ⟨mo, b⟩
  cases mo with
  | none =>
    cases b <;> simp only [PartialDriver.ReadDown, hdn] <;> exact Or.inl (by trivial)
  | some m =>
    cases b with
    | false =>
      simp only [PartialDriver.ReadDown, hdn]
      exact Or.inl (by trivial)
    | true =>
      cases hreg : alLookup (baseName m.Raw) reg with
      | some fn =>
        rw [iofs_ReadDown_fn reg openF d version m fn hdn hreg]
        exact Or.inl (by trivial)
      | none =>
        cases hopen : openF d.fsys m.Raw with
        | error e =>
          simp only [PartialDriver.ReadDown, hdn, hreg, PartialDriver.openFile, hopen]
          exact Or.inl (by trivial)
        | ok body =>
          rw [iofs_ReadDown_stream reg openF d version m body hdn hreg hopen]
          exact Or.inr (by trivial)

theorem gcs_ReadUp_no_fn (S F : Type) (readObj : String → Except String S)
    (g : Gcs) (version : Nat) (m : Migration)
    (hup : g.migrations.Up version = (some m, true)) :
    (Gcs.ReadUp S F readObj g version).2.2.2.1 = none := by
  simp only [Gcs.ReadUp, hup, Gcs.openObject]
  cases readObj (pathJoin g.pfx m.Raw) <;> rfl

theorem gcs_ReadUp_stream (S F : Type) (readObj : String → Except String S)
    (g : Gcs) (version : Nat) (m : Migration) (r : S)
    (hup : g.migrations.Up version = (some m, true))
    (hok : readObj (pathJoin g.pfx m.Raw) = .ok r) :
    Gcs.ReadUp S F readObj g version = (some r, m.Identifier, m.Raw, none, none) := by
  simp only [Gcs.ReadUp, hup, Gcs.openObject, hok]

theorem gcs_ReadUp_notFound (S F : Type) (readObj : String → Except String S)
    (g : Gcs) (version : Nat) (hup : g.migrations.Up version = (none, false)) :
    Gcs.ReadUp S F readObj g version = (none, (""), (""), none, some .notExist) := by
  simp only [Gcs.ReadUp, hup]

theorem gcs_ReadDown_no_fn (S F : Type) (readObj : String → Except String S)
    (g : Gcs) (version : Nat) (m : Migration)
    (hdn : g.migrations.Down version = (some m, true)) :
    (Gcs.ReadDown S F readObj g version).2.2.2.1 = none := by
  simp only [Gcs.ReadDown, hdn, Gcs.openObject]
  cases readObj (pathJoin g.pfx m.Raw) <;> rfl

theorem gcs_ReadDown_notFound (S F : Type) (readObj : String → Except String S)
    (g : Gcs) (version : Nat) (hdn : g.migrations.Down version = (none, false)) :
    Gcs.ReadDown S F readObj g version = (none, (""), (""), none, some .notExist) := by
  simp only [Gcs.ReadDown, hdn]

theorem dirLookup_empty (v : Nat) (d : Direction) : dirLookup NewMigrations v d = none := by
  rw [dirLookup, mapGet]
  show (DirMap.get ⟨none, none⟩ d) = none
  exact DirMap.get_default d

theorem sortNat_eq_nil_iff (l : List Nat) : sortNat l = [] ↔ l = [] := by
  constructor
  · intro h
    have := sortNat_perm l
    rw [h] at this
    exact this.symm.eq_nil
  · rintro rfl
    rfl

theorem sorted_head_min (x : Nat) (xs : List Nat) (hs : (x :: xs).Sorted (· ≤ ·)) :
    ∀ y ∈ x :: xs, x ≤ y := by
  intro y hy
  rcases List.mem_cons.mp hy with rfl | hy
  · exact le_refl y
  · exact List.rel_of_sorted_cons hs y hy

/-! The claims. -/

/-- Claim C1: for every Migrations index and every record m, Append(m)
returns false and leaves the index completely unchanged whenever m is
nil or a record already exists for the exact (version, direction) pair
of m; on success it inserts the record and refreshes the sorted version
sequence. -/
theorem claim_C1 :
    (∀ i : Migrations, i.Append none = (i, false)) ∧
    (∀ (i : Migrations) (m : Migration), dirLookup i m.Version m.Direction ≠ none →
      i.Append (some m) = (i, false)) ∧
    (∀ (i : Migrations) (m : Migration), dirLookup i m.Version m.Direction = none →
      (i.Append (some m)).2 = true ∧
      dirLookup (i.Append (some m)).1 m.Version m.Direction = some m ∧
      (i.Append (some m)).1.index = sortNat (keys (i.Append (some m)).1.migrations)) := by
  refine ⟨append_none_eq, ?_, ?_⟩
  · intro i m h
    cases hx : dirLookup i m.Version m.Direction with
    | none => exact absurd hx h
    | some x => exact append_dup_eq i m x hx
  · intro i m h
    exact ⟨(append_snd_true_iff i m).mpr h, append_dirLookup_self i m h,
      append_index_sorted_after_success i m h⟩

theorem claim_C1_witness :
    (NewMigrations.Append none = (NewMigrations, false)) ∧
    ((NewMigrations.Append (some ⟨3, ("a"), .Up, ("r"), .Pending, ("")⟩)).1.Append
        (some ⟨3, ("a"), .Up, ("r"), .Pending, ("")⟩) =
      ((NewMigrations.Append (some ⟨3, ("a"), .Up, ("r"), .Pending, ("")⟩)).1, false)) ∧
    ((NewMigrations.Append (some ⟨3, ("a"), .Up, ("r"), .Pending, ("")⟩)).2 = true) :=
  ⟨claim_C1.1 NewMigrations,
    claim_C1.2.1 _ ⟨3, ("a"), .Up, ("r"), .Pending, ("")⟩ (by decide),
    (claim_C1.2.2 NewMigrations ⟨3, ("a"), .Up, ("r"), .Pending, ("")⟩ (by decide)).1⟩

/-- Claim C2: for every sequence of successful Append calls with distinct
(version, direction) pairs from a fresh index, every call succeeds, the
sorted version sequence equals the distinct ascending set of appended
versions, First returns the minimum appended version and returns
(0, false) exactly when the index is empty; and the sorted sequence
equals the sorted distinct keys of the version mapping after every
mutating operation. -/
theorem claim_C2 :
    (∀ l : List Migration,
      l.Pairwise (fun a b => ¬(a.Version = b.Version ∧ a.Direction = b.Direction)) →
      (runAppends NewMigrations l).2 = true ∧
      (runAppends NewMigrations l).1.index = sortNat ((l.map Migration.Version).dedup) ∧
      (∀ v ∈ l.map Migration.Version, ((runAppends NewMigrations l).1.First).1 ≤ v) ∧
      (l ≠ [] → ((runAppends NewMigrations l).1.First).2 = true ∧
        ((runAppends NewMigrations l).1.First).1 ∈ l.map Migration.Version) ∧
      ((runAppends NewMigrations l).1.First = (0, false) ↔ l = [])) ∧
    (∀ (i : Migrations) (mo : Option Migration), goodIndex i →
      goodIndex (i.Append mo).1) ∧
    (∀ (i : Migrations) (v : Nat) (st : Status) (e : String), goodIndex i →
      goodIndex (i.UpdateStatus v st e)) ∧
    (∀ (i : Migrations) (v : Nat) (d : Direction) (i2 : Migrations), goodIndex i →
      i.MarkSkipMigrations v d = some i2 → goodIndex i2) := by
  refine ⟨?_, append_goodIndex, updateStatus_goodIndex,
    fun i v d i2 hg h => markSkip_goodIndex i v d i2 hg h⟩
  intro l hdist
  have hok : (runAppends NewMigrations l).2 = true :=
    runAppends_ok l NewMigrations (fun m _ => dirLookup_empty m.Version m.Direction) hdist
  have hidx : (runAppends NewMigrations l).1.index =
      sortNat ((l.map Migration.Version).dedup) := runAppends_index_eq l
  have hsorted : ((runAppends NewMigrations l).1.index).Sorted (· ≤ ·) := by
    rw [hidx]
    exact sortNat_sorted _
  refine ⟨hok, hidx, ?_, ?_, ?_⟩
  · intro v hv
    have hvidx : v ∈ (runAppends NewMigrations l).1.index := by
      rw [hidx]
      exact (sortNat_perm _).mem_iff.mpr (List.mem_dedup.mpr hv)
    cases hcase : (runAppends NewMigrations l).1.index with
    | nil => rw [hcase] at hvidx; simp at hvidx
    | cons x xs =>
      have hfirst : ((runAppends NewMigrations l).1.First).1 = x := by
        rw [Migrations.First, hcase]
        simp
      rw [hfirst]
      rw [hcase] at hvidx hsorted
      exact sorted_head_min x xs hsorted v hvidx
  · intro hne
    have hnil : (runAppends NewMigrations l).1.index ≠ [] := by
      rw [hidx]
      intro h
      rcases (sortNat_eq_nil_iff _).mp h with h2
      rw [List.dedup_eq_nil] at h2
      cases l with
      | nil => exact hne rfl
      | cons a as => simp at h2
    cases hcase : (runAppends NewMigrations l).1.index with
    | nil => exact absurd hcase hnil
    | cons x xs =>
      have hfirst : (runAppends NewMigrations l).1.First = (x, true) := by
        rw [Migrations.First, hcase]
        simp
      rw [hfirst]
      refine ⟨rfl, ?_⟩
      have hxmem : x ∈ (runAppends NewMigrations l).1.index := by
        rw [hcase]
        exact List.mem_cons_self _ _
      rw [hidx] at hxmem
      exact List.mem_dedup.mp ((sortNat_perm _).mem_iff.mp hxmem)
  · rw [first_eq_none_iff, hidx, sortNat_eq_nil_iff, List.dedup_eq_nil]
    cases l with
    | nil => simp
    | cons a as => simp

theorem claim_C2_witness :
    (runAppends NewMigrations
      [⟨2, ("b"), .Up, ("rb"), .Pending, ("")⟩,
       ⟨1, ("a"), .Up, ("ra"), .Pending, ("")⟩,
       ⟨1, ("a"), .Down, ("ra"), .Pending, ("")⟩]).2 = true ∧
    (runAppends NewMigrations
      [⟨2, ("b"), .Up, ("rb"), .Pending, ("")⟩,
       ⟨1, ("a"), .Up, ("ra"), .Pending, ("")⟩,
       ⟨1, ("a"), .Down, ("ra"), .Pending, ("")⟩]).1.index = [1, 2] :=
  have h := claim_C2.1
    [⟨2, ("b"), .Up, ("rb"), .Pending, ("")⟩,
     ⟨1, ("a"), .Up, ("ra"), .Pending, ("")⟩,
     ⟨1, ("a"), .Down, ("ra"), .Pending, ("")⟩] (by decide)
  ⟨h.1, by rw [h.2.1]; decide⟩

/-- Claim C3: on a sorted index, Next of an indexed version with a
successor returns that successor with true, Next of the maximum returns
(0, false), symmetrically for Prev, and for any version not in the
sequence both Prev and Next return (0, false) even if a numerically
adjacent version is present. -/
theorem claim_C3 (i : Migrations) (hs : i.index.Sorted (· < ·)) :
    (∀ k : Nat, k + 1 < i.index.length →
      i.Next (i.index.getD k 0) = (i.index.getD (k + 1) 0, true)) ∧
    (i.index ≠ [] → i.Next (i.index.getD (i.index.length - 1) 0) = (0, false)) ∧
    (∀ k : Nat, k + 1 < i.index.length →
      i.Prev (i.index.getD (k + 1) 0) = (i.index.getD k 0, true)) ∧
    (i.index ≠ [] → i.Prev (i.index.getD 0 0) = (0, false)) ∧
    (∀ v : Nat, v ∉ i.index → i.Prev v = (0, false) ∧ i.Next v = (0, false)) :=
  ⟨fun k hk => Next_of_getD i hs k hk,
   fun hne => Next_of_last i hs hne,
   fun k hk => Prev_of_getD i hs k hk,
   fun hne => Prev_of_head i hs hne,
   fun v hv => ⟨Prev_of_not_mem i hs v hv, Next_of_not_mem i hs v hv⟩⟩

/-- A concrete index holding up-migrations for versions 1, 2 and 5. -/
def sample125 : Migrations :=
  (runAppends NewMigrations
    [⟨1, ("one"), .Up, ("r1"), .Pending, ("")⟩,
     ⟨2, ("two"), .Up, ("r2"), .Pending, ("")⟩,
     ⟨5, ("five"), .Up, ("r5"), .Pending, ("")⟩]).1

theorem claim_C3_witness :
    (sample125.Next (sample125.index.getD 1 0) = (sample125.index.getD 2 0, true)) ∧
    (sample125.Next (sample125.index.getD (sample125.index.length - 1) 0) = (0, false)) ∧
    (sample125.Prev 3 = (0, false) ∧ sample125.Next 3 = (0, false)) :=
  ⟨(claim_C3 sample125 (by decide)).1 1 (by decide),
   (claim_C3 sample125 (by decide)).2.1 (by decide),
   (claim_C3 sample125 (by decide)).2.2.2.2 3 (by decide)⟩

/-- Claim C4: after a completed MarkSkipMigrations(v, Up) on a valid index,
every indexed version at most v has its Up record status set to Skipped
and every version greater than v is unchanged; symmetrically for Down
with versions at least v; and the operation is idempotent. -/
theorem claim_C4 (i : Migrations) (v : Nat) (hn : nodupKeys i.migrations) :
    (∀ i2 : Migrations, i.MarkSkipMigrations v .Up = some i2 →
      i2.index = i.index ∧
      (∀ w ∈ i.index, w ≤ v → ∃ rec, dirLookup i w .Up = some rec ∧
        dirLookup i2 w .Up = some { rec with Status := .Skipped }) ∧
      (∀ w ∈ i.index, w ≤ v → dirLookup i2 w .Down = dirLookup i w .Down) ∧
      (∀ w : Nat, v < w → mapGet i2.migrations w = mapGet i.migrations w) ∧
      i2.MarkSkipMigrations v .Up = some i2) ∧
    (∀ i2 : Migrations, i.MarkSkipMigrations v .Down = some i2 →
      i2.index = i.index ∧
      (∀ w ∈ i.index, v ≤ w → ∃ rec, dirLookup i w .Down = some rec ∧
        dirLookup i2 w .Down = some { rec with Status := .Skipped }) ∧
      (∀ w ∈ i.index, v ≤ w → dirLookup i2 w .Up = dirLookup i w .Up) ∧
      (∀ w : Nat, w < v → mapGet i2.migrations w = mapGet i.migrations w) ∧
      i2.MarkSkipMigrations v .Down = some i2) := by
  constructor
  · intro i2 h
    have heq := markSkip_eq i v .Up hn i2 h
    have hslots := markSkip_some_slots i v .Up i2 h
    have hmg : ∀ w : Nat, mapGet i2.migrations w =
        if w ∈ i.index ∧ skipCond .Up v w then
          (mapGet i.migrations w).set .Up ((mapGet i.migrations w).get .Up |>.map skipRec)
        else mapGet i.migrations w := by
      intro w
      rw [heq]
      exact mapGet_markAll i.migrations i.index v .Up w
    refine ⟨markSkip_index i v .Up i2 h, ?_, ?_, ?_, markSkip_idem i v .Up i2 hn h⟩
    · intro w hw hwv
      have hcond : skipCond .Up v w := (skipCond_Up v w).mpr hwv
      obtain ⟨rec, hrec⟩ := Option.isSome_iff_exists.mp (hslots w hw hcond)
      refine ⟨rec, hrec, ?_⟩
      rw [dirLookup, hmg w, if_pos ⟨hw, hcond⟩, DirMap.get_set_self]
      rw [hrec, Option.map_some']
      rfl
    · intro w hw hwv
      have hcond : skipCond .Up v w := (skipCond_Up v w).mpr hwv
      show (mapGet i2.migrations w).get .Down = (mapGet i.migrations w).get .Down
      rw [hmg w, if_pos ⟨hw, hcond⟩,
        DirMap.get_set_ne _ _ _ _ (by intro hdd; cases hdd)]
    · intro w hvw
      rw [hmg w, if_neg]
      rintro ⟨_, hcond⟩
      have := (skipCond_Up v w).mp hcond
      omega
  · intro i2 h
    have heq := markSkip_eq i v .Down hn i2 h
    have hslots := markSkip_some_slots i v .Down i2 h
    have hmg : ∀ w : Nat, mapGet i2.migrations w =
        if w ∈ i.index ∧ skipCond .Down v w then
          (mapGet i.migrations w).set .Down
            ((mapGet i.migrations w).get .Down |>.map skipRec)
        else mapGet i.migrations w := by
      intro w
      rw [heq]
      exact mapGet_markAll i.migrations i.index v .Down w
    refine ⟨markSkip_index i v .Down i2 h, ?_, ?_, ?_, markSkip_idem i v .Down i2 hn h⟩
    · intro w hw hwv
      have hcond : skipCond .Down v w := (skipCond_Down v w).mpr hwv
      obtain ⟨rec, hrec⟩ := Option.isSome_iff_exists.mp (hslots w hw hcond)
      refine ⟨rec, hrec, ?_⟩
      rw [dirLookup, hmg w, if_pos ⟨hw, hcond⟩, DirMap.get_set_self]
      rw [hrec, Option.map_some']
      rfl
    · intro w hw hwv
      have hcond : skipCond .Down v w := (skipCond_Down v w).mpr hwv
      show (mapGet i2.migrations w).get .Up = (mapGet i.migrations w).get .Up
      rw [hmg w, if_pos ⟨hw, hcond⟩,
        DirMap.get_set_ne _ _ _ _ (by intro hdd; cases hdd)]
    · intro w hvw
      rw [hmg w, if_neg]
      rintro ⟨_, hcond⟩
      have := (skipCond_Down v w).mp hcond
      omega

/-- A concrete index with Up and Down records for versions 1, 2 and 5. -/
def sampleFull : Migrations :=
  (runAppends NewMigrations
    [⟨1, ("one"), .Up, ("u1"), .Pending, ("")⟩,
     ⟨1, ("one"), .Down, ("d1"), .Pending, ("")⟩,
     ⟨2, ("two"), .Up, ("u2"), .Pending, ("")⟩,
     ⟨2, ("two"), .Down, ("d2"), .Pending, ("")⟩,
     ⟨5, ("five"), .Up, ("u5"), .Pending, ("")⟩,
     ⟨5, ("five"), .Down, ("d5"), .Pending, ("")⟩]).1

theorem claim_C4_witness :
    ((sampleFull.MarkSkipMigrations 2 .Up).getD NewMigrations).index =
      sampleFull.index ∧
    ((sampleFull.MarkSkipMigrations 2 .Up).getD
        NewMigrations).MarkSkipMigrations 2 .Up =
      some ((sampleFull.MarkSkipMigrations 2 .Up).getD NewMigrations) ∧
    (∀ w : Nat, 2 < w →
      mapGet ((sampleFull.MarkSkipMigrations 2 .Up).getD NewMigrations).migrations w =
        mapGet sampleFull.migrations w) := by
  have hnod : nodupKeys sampleFull.migrations := by
    show (keys sampleFull.migrations).Nodup
    decide
  have hsome : sampleFull.MarkSkipMigrations 2 .Up =
      some ((sampleFull.MarkSkipMigrations 2 .Up).getD NewMigrations) := by decide
  have h := (claim_C4 sampleFull 2 hnod).1
    ((sampleFull.MarkSkipMigrations 2 .Up).getD NewMigrations) hsome
  exact ⟨h.1, h.2.2.2.2, h.2.2.2.1⟩

/-- Claim C5 (code bug witness): on an index whose version 1 has only a
Down record, MarkSkipMigrations(1, Up) dereferences a nil record pointer
(modelled as none) instead of completing and ignoring the missing
direction entry. -/
theorem claim_C5_bug :
    dirLookup
      (runAppends NewMigrations [⟨1, ("one"), .Down, ("d1"), .Pending, ("")⟩]).1
      1 .Down ≠ none ∧
    dirLookup
      (runAppends NewMigrations [⟨1, ("one"), .Down, ("d1"), .Pending, ("")⟩]).1
      1 .Up = none ∧
    (runAppends NewMigrations
        [⟨1, ("one"), .Down, ("d1"), .Pending, ("")⟩]).1.MarkSkipMigrations 1 .Up =
      none := by
  refine ⟨by decide, by decide, by decide⟩

/-- Claim C6: UpdateStatus(v, status, errorText) sets the status and error
text on every direction record that exists for version v, leaves every
other version untouched, and is a no-op when v is not indexed. -/
theorem claim_C6 (i : Migrations) (v : Nat) (st : Status) (e : String) :
    (alLookup v i.migrations = none → i.UpdateStatus v st e = i) ∧
    (∀ d : Direction, dirLookup (i.UpdateStatus v st e) v d =
      (dirLookup i v d).map (fun m => { m with Status := st, Error := e })) ∧
    (∀ w : Nat, w ≠ v →
      mapGet (i.UpdateStatus v st e).migrations w = mapGet i.migrations w) ∧
    (i.UpdateStatus v st e).index = i.index :=
  ⟨updateStatus_not_indexed i v st e,
   fun d => updateStatus_dirLookup_self i v st e d,
   fun w hw => updateStatus_mapGet_other i v st e w hw,
   updateStatus_index i v st e⟩

theorem claim_C6_witness :
    (sampleFull.UpdateStatus 9 .Failed ("boom") = sampleFull) ∧
    dirLookup (sampleFull.UpdateStatus 1 .Failed ("boom")) 1 .Up =
      (dirLookup sampleFull 1 .Up).map
        (fun m => { m with Status := .Failed, Error := ("boom") }) ∧
    mapGet (sampleFull.UpdateStatus 1 .Failed ("boom")).migrations 2 =
      mapGet sampleFull.migrations 2 :=
  ⟨(claim_C6 sampleFull 9 .Failed ("boom")).1 (by decide),
   (claim_C6 sampleFull 1 .Failed ("boom")).2.1 .Up,
   (claim_C6 sampleFull 1 .Failed ("boom")).2.2.1 2 (by decide)⟩

/-- Claim C7 counterexample: a reachable sequence (Append, UpdateStatus
to Done, MarkSkipMigrations) moves a record status out of the terminal
Done state into Skipped, so the operations do not enforce the terminal
state machine. -/
theorem claim_C7_counterexample :
    (dirLookup
      (((runAppends NewMigrations
        [⟨1, ("one"), .Up, ("u1"), .Pending, ("")⟩]).1).UpdateStatus 1 .Done (""))
      1 .Up).map Migration.Status = some .Done ∧
    ((((runAppends NewMigrations
        [⟨1, ("one"), .Up, ("u1"), .Pending, ("")⟩]).1).UpdateStatus 1 .Done
          ("")).MarkSkipMigrations 1 .Up).bind
      (fun j => (dirLookup j 1 .Up).map Migration.Status) = some .Skipped := by
  refine ⟨by decide, by decide⟩

/-- Claim C7 amended: the index does not enforce the terminal state
machine; UpdateStatus overwrites the status of every existing record of
the version with the given status regardless of its current (possibly
terminal) status, and a completed MarkSkipMigrations sets Skipped on
every in-range record regardless of its current status. -/
theorem claim_C7_amended (i : Migrations) (v : Nat) (d : Direction) :
    (∀ (st : Status) (e : String) (rec : Migration), dirLookup i v d = some rec →
      dirLookup (i.UpdateStatus v st e) v d =
        some { rec with Status := st, Error := e }) ∧
    (∀ i2 : Migrations, nodupKeys i.migrations →
      i.MarkSkipMigrations v d = some i2 →
      ∀ w ∈ i.index, skipCond d v w →
        (dirLookup i2 w d).map Migration.Status = some .Skipped) := by
  constructor
  · intro st e rec hrec
    rw [updateStatus_dirLookup_self i v st e d, hrec, Option.map_some']
  · intro i2 hn h w hw hcond
    have heq := markSkip_eq i v d hn i2 h
    have hslots := markSkip_some_slots i v d i2 h
    obtain ⟨rec, hrec⟩ := Option.isSome_iff_exists.mp (hslots w hw hcond)
    rw [heq]
    show ((mapGet (markAll i.migrations i.index v d) w).get d).map Migration.Status = _
    rw [mapGet_markAll, if_pos ⟨hw, hcond⟩, DirMap.get_set_self, hrec,
      Option.map_some', Option.map_some']
    rfl

theorem claim_C7_amended_witness :
    dirLookup
      (((runAppends NewMigrations
        [⟨1, ("one"), .Up, ("u1"), .Done, ("")⟩]).1).UpdateStatus 1 .Pending (""))
      1 .Up =
      some ⟨1, ("one"), .Up, ("u1"), .Pending, ("")⟩ :=
  (claim_C7_amended
      (runAppends NewMigrations [⟨1, ("one"), .Up, ("u1"), .Done, ("")⟩]).1
      1 .Up).1 .Pending ("") ⟨1, ("one"), .Up, ("u1"), .Done, ("")⟩ (by decide)

/-- Claim C8: during discovery (iofs Init walk, gcs loadMigrations),
a name that fails to parse is silently skipped and never fails the pass,
while a name parsing to an already-indexed (version, direction) pair
aborts discovery with an error. -/
theorem claim_C8 :
    (∀ (parse : String → Option Migration) (ms : Migrations) (e : FsEntry)
        (rest : List FsEntry), e.isDir = false → parse e.name = none →
      iofsInitLoop parse ms (e :: rest) = iofsInitLoop parse ms rest) ∧
    (∀ (parse : String → Option Migration) (ms : Migrations) (e : FsEntry)
        (rest : List FsEntry) (m x : Migration), e.isDir = false →
      parse e.name = some m → e.infoErr = none →
      dirLookup ms m.Version m.Direction = some x →
      iofsInitLoop parse ms (e :: rest) =
        .error (.duplicate { m with Raw := e.path })) ∧
    (∀ (parse : String → Option Migration) (ms : Migrations) (objName : String)
        (rest : List String), parse (pathSplitFile objName) = none →
      gcsLoadLoop parse ms (objName :: rest) = gcsLoadLoop parse ms rest) ∧
    (∀ (parse : String → Option Migration) (ms : Migrations) (objName : String)
        (rest : List String) (m x : Migration),
      parse (pathSplitFile objName) = some m →
      dirLookup ms m.Version m.Direction = some x →
      gcsLoadLoop parse ms (objName :: rest) = .error (.appendErr objName)) :=
  ⟨iofsInitLoop_skip_unparsable, iofsInitLoop_dup_aborts,
   gcsLoadLoop_skip_unparsable, gcsLoadLoop_dup_aborts⟩

/-- A concrete parser recognizing one migration file name. -/
def parseOne : String → Option Migration := fun s =>
  if s = ("0001_one.up.sql") then
    some ⟨1, ("one"), .Up, ("0001_one.up.sql"), .Pending, ("")⟩
  else none

theorem claim_C8_witness :
    (iofsInitLoop parseOne NewMigrations
        [⟨("db/readme.txt"), ("readme.txt"), false, none⟩] =
      iofsInitLoop parseOne NewMigrations []) ∧
    (iofsInitLoop parseOne
        (NewMigrations.Append
          (some ⟨1, ("one"), .Up, ("0001_one.up.sql"), .Pending, ("")⟩)).1
        [⟨("db/0001_one.up.sql"), ("0001_one.up.sql"), false, none⟩] =
      .error (.duplicate
        ⟨1, ("one"), .Up, ("db/0001_one.up.sql"), .Pending, ("")⟩)) ∧
    (gcsLoadLoop parseOne NewMigrations [("db/readme.txt")] =
      gcsLoadLoop parseOne NewMigrations []) ∧
    (gcsLoadLoop parseOne
        (NewMigrations.Append
          (some ⟨1, ("one"), .Up, ("0001_one.up.sql"), .Pending, ("")⟩)).1
        [("db/0001_one.up.sql")] =
      .error (.appendErr ("db/0001_one.up.sql"))) :=
  ⟨claim_C8.1 parseOne NewMigrations
      ⟨("db/readme.txt"), ("readme.txt"), false, none⟩ [] (by decide) (by decide),
   claim_C8.2.1 parseOne _
      ⟨("db/0001_one.up.sql"), ("0001_one.up.sql"), false, none⟩ []
      ⟨1, ("one"), .Up, ("0001_one.up.sql"), .Pending, ("")⟩
      ⟨1, ("one"), .Up, ("0001_one.up.sql"), .Pending, ("")⟩
      (by decide) (by decide) (by decide) (by decide),
   claim_C8.2.2.1 parseOne NewMigrations ("db/readme.txt") [] (by decide),
   claim_C8.2.2.2 parseOne _ ("db/0001_one.up.sql") []
      ⟨1, ("one"), .Up, ("0001_one.up.sql"), .Pending, ("")⟩
      ⟨1, ("one"), .Up, ("0001_one.up.sql"), .Pending, ("")⟩
      (by decide) (by decide)⟩

/-- A concrete GCS driver state holding one up-migration. -/
def gcsX : Gcs :=
  ⟨("migrations"),
   (runAppends NewMigrations
     [⟨1, ("one"), .Up, ("0001_one.up.sql"), .Pending, ("")⟩]).1⟩

/-- A registry that does contain the basename of the indexed migration. -/
def regX : List (String × Unit) := [(("0001_one.up.sql"), ())]

/-- A GCS object reader that always succeeds. -/
def readObjX : String → Except String String := fun _ => .ok ("contents")

/-- Claim C9 counterexample: the GCS driver, unlike iofs, never consults
the function registry: even though the resolved record basename is
registered, ReadUp returns a content stream and a nil function. -/
theorem claim_C9_counterexample :
    (gcsX.migrations.Up 1 =
      (some ⟨1, ("one"), .Up, ("0001_one.up.sql"), .Pending, ("")⟩, true)) ∧
    alLookup (baseName ("0001_one.up.sql")) regX = some () ∧
    (Gcs.ReadUp String Unit readObjX gcsX 1).2.2.2.1 = none ∧
    (Gcs.ReadUp String Unit readObjX gcsX 1).1 = some ("contents") :=
  ⟨by decide, by decide, by decide, by decide⟩

/-- Claim C9 amended: for iofs, ReadUp/ReadDown return the registered
function (with nil stream) when the record basename is registered and a
content stream (with nil function) otherwise; stream and function are
mutually exclusive; a version that is not indexed yields the not-exist
error, never a backend I/O failure. The GCS driver never consults the
registry: an indexed read always carries a nil function. -/
theorem claim_C9_amended :
    (∀ (σ S F : Type) (reg : List (String × F))
        (openF : σ → String → Except String S) (d : PartialDriver σ)
        (version : Nat) (m : Migration) (fn : F),
      d.migrations.Up version = (some m, true) →
      alLookup (baseName m.Raw) reg = some fn →
      PartialDriver.ReadUp reg openF d version =
        (none, m.Identifier, m.Raw, some fn, none)) ∧
    (∀ (σ S F : Type) (reg : List (String × F))
        (openF : σ → String → Except String S) (d : PartialDriver σ)
        (version : Nat) (m : Migration) (body : S),
      d.migrations.Up version = (some m, true) →
      alLookup (baseName m.Raw) reg = none → openF d.fsys m.Raw = .ok body →
      PartialDriver.ReadUp reg openF d version =
        (some body, m.Identifier, m.Raw, none, none)) ∧
    (∀ (σ S F : Type) (reg : List (String × F))
        (openF : σ → String → Except String S) (d : PartialDriver σ)
        (version : Nat) (m : Migration) (fn : F),
      d.migrations.Down version = (some m, true) →
      alLookup (baseName m.Raw) reg = some fn →
      PartialDriver.ReadDown reg openF d version =
        (none, m.Identifier, m.Raw, some fn, none)) ∧
    (∀ (σ S F : Type) (reg : List (String × F))
        (openF : σ → String → Except String S) (d : PartialDriver σ)
        (version : Nat),
      (PartialDriver.ReadUp reg openF d version).1 = none ∨
      (PartialDriver.ReadUp reg openF d version).2.2.2.1 = none) ∧
    (∀ (σ S F : Type) (reg : List (String × F))
        (openF : σ → String → Except String S) (d : PartialDriver σ)
        (version : Nat),
      (PartialDriver.ReadDown reg openF d version).1 = none ∨
      (PartialDriver.ReadDown reg openF d version).2.2.2.1 = none) ∧
    (∀ (σ S F : Type) (reg : List (String × F))
        (openF : σ → String → Except String S) (d : PartialDriver σ)
        (version : Nat), d.migrations.Up version = (none, false) →
      PartialDriver.ReadUp reg openF d version =
        (none, (""), (""), none,
          some (.notExist (("read up for version ") ++ toString version) d.path))) ∧
    (∀ (S F : Type) (readObj : String → Except String S) (g : Gcs)
        (version : Nat) (m : Migration),
      g.migrations.Up version = (some m, true) →
      (Gcs.ReadUp S F readObj g version).2.2.2.1 = none) ∧
    (∀ (S F : Type) (readObj : String → Except String S) (g : Gcs)
        (version : Nat) (m : Migration),
      g.migrations.Down version = (some m, true) →
      (Gcs.ReadDown S F readObj g version).2.2.2.1 = none) ∧
    (∀ (S F : Type) (readObj : String → Except String S) (g : Gcs)
        (version : Nat), g.migrations.Up version = (none, false) →
      Gcs.ReadUp S F readObj g version =
        (none, (""), (""), none, some .notExist)) :=
  ⟨fun σ S F reg openF d version m fn hup hreg =>
      iofs_ReadUp_fn reg openF d version m fn hup hreg,
   fun σ S F reg openF d version m body hup hreg hok =>
      iofs_ReadUp_stream reg openF d version m body hup hreg hok,
   fun σ S F reg openF d version m fn hdn hreg =>
      iofs_ReadDown_fn reg openF d version m fn hdn hreg,
   fun σ S F reg openF d version =>
      iofs_ReadUp_exclusive reg openF d version,
   fun σ S F reg openF d version =>
      iofs_ReadDown_exclusive reg openF d version,
   fun σ S F reg openF d version hup =>
      iofs_ReadUp_notFound reg openF d version hup,
   fun S F readObj g version m hup =>
      gcs_ReadUp_no_fn S F readObj g version m hup,
   fun S F readObj g version m hdn =>
      gcs_ReadDown_no_fn S F readObj g version m hdn,
   fun S F readObj g version hup =>
      gcs_ReadUp_notFound S F readObj g version hup⟩

/-- A file-system reader for the iofs witness that always succeeds. -/
def readObjUnit : Unit → String → Except String String := fun _ _ => .ok ("contents")

/-- An iofs driver state holding one up-migration for version 1. -/
def iofsX : PartialDriver Unit :=
  ⟨(runAppends NewMigrations
      [⟨1, ("one"), .Up, ("0001_one.up.sql"), .Pending, ("")⟩]).1,
   (), ("db")⟩

theorem claim_C9_witness :
    (PartialDriver.ReadUp regX readObjUnit iofsX 1 =
      (none, ("one"), ("0001_one.up.sql"), some (), none)) ∧
    (PartialDriver.ReadUp ([] : List (String × Unit)) readObjUnit iofsX 1 =
      (some ("contents"), ("one"), ("0001_one.up.sql"), none, none)) ∧
    (PartialDriver.ReadUp regX readObjUnit iofsX 7 =
      (none, (""), (""), none,
        some (.notExist (("read up for version ") ++ toString 7) ("db")))) ∧
    ((Gcs.ReadUp String Unit readObjX gcsX 1).2.2.2.1 = none) :=
  ⟨claim_C9_amended.1 Unit String Unit regX readObjUnit iofsX 1
      ⟨1, ("one"), .Up, ("0001_one.up.sql"), .Pending, ("")⟩ () (by decide) (by decide),
   claim_C9_amended.2.1 Unit String Unit [] readObjUnit iofsX 1
      ⟨1, ("one"), .Up, ("0001_one.up.sql"), .Pending, ("")⟩ ("contents")
      (by decide) (by decide) rfl,
   claim_C9_amended.2.2.2.2.2.1 Unit String Unit regX readObjUnit iofsX 7 (by decide),
   claim_C9_amended.2.2.2.2.2.2.1 String Unit readObjX gcsX 1
      ⟨1, ("one"), .Up, ("0001_one.up.sql"), .Pending, ("")⟩ (by decide)⟩

theorem pair_eq_none_false_iff (o : Option Migration) :
    (o, o.isSome) = ((none : Option Migration), false) ↔ o = none := by
  cases o <;> simp

/-- Claim C10: a successful Append makes the matching Up/Down lookup
return exactly the appended record, later status mutations through
UpdateStatus are visible through subsequent lookups, and Up/Down return
(nil, false) exactly when no record was successfully appended for that
(version, direction). -/
theorem claim_C10 :
    (∀ (i : Migrations) (m : Migration) (i2 : Migrations),
      i.Append (some m) = (i2, true) →
      (m.Direction = .Up → i2.Up m.Version = (some m, true)) ∧
      (m.Direction = .Down → i2.Down m.Version = (some m, true)) ∧
      (∀ (st : Status) (e : String),
        dirLookup (i2.UpdateStatus m.Version st e) m.Version m.Direction =
          some { m with Status := st, Error := e })) ∧
    (∀ (l : List Migration) (v : Nat),
      ((runAppends NewMigrations l).1.Up v = (none, false) ↔
        ∀ m ∈ l, ¬(m.Version = v ∧ m.Direction = .Up)) ∧
      ((runAppends NewMigrations l).1.Down v = (none, false) ↔
        ∀ m ∈ l, ¬(m.Version = v ∧ m.Direction = .Down))) := by
  constructor
  · intro i m i2 happ
    have hslot : dirLookup i m.Version m.Direction = none := by
      rw [← append_snd_true_iff i m, happ]
    have hi2 : i2 = (i.Append (some m)).1 := by rw [happ]
    have hlook : dirLookup i2 m.Version m.Direction = some m := by
      rw [hi2]
      exact append_dirLookup_self i m hslot
    refine ⟨?_, ?_, ?_⟩
    · intro hd
      rw [Up_eq_dirLookup, ← hd, hlook]
      rfl
    · intro hd
      rw [Down_eq_dirLookup, ← hd, hlook]
      rfl
    · intro st e
      rw [updateStatus_dirLookup_self, hlook, Option.map_some']
  · intro l v
    constructor
    · rw [Up_eq_dirLookup, pair_eq_none_false_iff]
      exact runAppends_dirLookup_from_empty l v .Up
    · rw [Down_eq_dirLookup, pair_eq_none_false_iff]
      exact runAppends_dirLookup_from_empty l v .Down

theorem claim_C10_witness :
    ((NewMigrations.Append
        (some ⟨4, ("four"), .Up, ("u4"), .Pending, ("")⟩)).1.Up 4 =
      (some ⟨4, ("four"), .Up, ("u4"), .Pending, ("")⟩, true)) ∧
    dirLookup
      (((NewMigrations.Append
          (some ⟨4, ("four"), .Up, ("u4"), .Pending, ("")⟩)).1).UpdateStatus 4
        .Done ("")) 4 .Up =
      some ⟨4, ("four"), .Up, ("u4"), .Done, ("")⟩ ∧
    ((runAppends NewMigrations
        [⟨4, ("four"), .Up, ("u4"), .Pending, ("")⟩]).1.Down 4 = (none, false)) :=
  ⟨(claim_C10.1 NewMigrations ⟨4, ("four"), .Up, ("u4"), .Pending, ("")⟩
      (NewMigrations.Append (some ⟨4, ("four"), .Up, ("u4"), .Pending, ("")⟩)).1
      (by decide)).1 (by decide),
   (claim_C10.1 NewMigrations ⟨4, ("four"), .Up, ("u4"), .Pending, ("")⟩
      (NewMigrations.Append (some ⟨4, ("four"), .Up, ("u4"), .Pending, ("")⟩)).1
      (by decide)).2.2 .Done (""),
   (claim_C10.2 [⟨4, ("four"), .Up, ("u4"), .Pending, ("")⟩] 4).2.mpr (by decide)⟩

end Migrate
